import Mathlib

/-!
# Verification of `dpegg.cpp`

Shallow embedding of the egg-drop dynamic-programming program `src/dpegg.cpp`
and proofs about it.  C++ `int` values are modelled as `Int`; the two
`std::unordered_map<tState, int>` tables are modelled as partial maps
`tState → Option Int` (the program only ever uses `find`/`insert`/entry
update on them, never iteration over the container, so the hash-map is
semantically a partial map).  Loops with data-dependent exit conditions are
modelled with explicit fuel; a fuel parameter that is provably large enough
is supplied at each call site, mirroring the fact that the corresponding C++
loop terminates.
-/

set_option maxHeartbeats 2000000

/-- Search state of the program: `eggs` probes remaining and the knowledge
`lb ≤ f* < ub` about the unknown threshold floor (struct `tState`). -/
structure tState where
  eggs : Int
  lb : Int
  ub : Int
deriving DecidableEq

/-- `tState::isterminal`. -/
def tState.isterminal (s : tState) : Bool :=
  decide (s.ub = s.lb + 1 ∧ 0 ≤ s.lb ∧ 0 ≤ s.eggs)

/-- `tState::isfailed`. -/
def tState.isfailed (s : tState) : Bool :=
  decide (s.eggs < 0 ∨ (s.eggs = 0 ∧ s.lb + 1 < s.ub))

/-- `tState::eggdrop`: the C++ member mutates the state and returns the
`breaks` flag; the pure embedding returns the updated state together with
the flag. -/
def tState.eggdrop (s : tState) (floor limit : Int) : tState × Bool :=
  if limit < floor then
    (⟨s.eggs - 1, s.lb, if floor < s.ub then floor else s.ub⟩, true)
  else
    (⟨s.eggs, if s.lb < floor then floor else s.lb, s.ub⟩, false)

/-- `tState::next`: pure successor state (copies the state, then applies
`eggdrop` to the copy). -/
def tState.next (s : tState) (floor limit : Int) : tState :=
  (s.eggdrop floor limit).1

/-- `tState::cost`: every drop costs exactly one, independent of the floor. -/
def tState.cost (s : tState) (floor limit : Int) : Int := 1

/-- The two tables `V` and `A` of the program, as partial maps. -/
def tMap := tState → Option Int

/-- Point update of a table: `V[s] = v` (covers both `insert` of a fresh key
and assignment through a found iterator). -/
def mapInsert (m : tMap) (k : tState) (v : Int) : tMap :=
  fun s => if s = k then some v else m s

/-- The everywhere-empty table. -/
def emptyMap : tMap := fun _ => none

/-- Ascending run of `n` consecutive integers starting at `lo`; embeds an
ascending C++ `for` loop counter. -/
def intsAsc : Int → Nat → List Int
  | _, 0 => []
  | lo, n + 1 => lo :: intsAsc (lo + 1) n

/-- Descending run of `n` consecutive integers starting (downwards) at `hi`;
embeds a descending C++ `for` loop counter. -/
def intsDesc : Int → Nat → List Int
  | _, 0 => []
  | hi, n + 1 => hi :: intsDesc (hi - 1) n

/-- The pure content of the memo table `reach` of `classic_dpegg_limit`:
`reach d e` = maximal number of floors distinguishable with `d` drops and
`e` eggs.  In the C++ code `reach[{d,e}]` is filled in increasing `d` order
from the seeds `reach[{0,e}] = reach[{d,0}] = 0` by
`reach[{d,e}] = 1 + reach[{d-1,e-1}] + reach[{d-1,e}]`; every lookup the
code performs happens after the corresponding store (or hits a seed), so the
stored values coincide with this pure recurrence. -/
def reach : Nat → Nat → Nat
  | 0, _ => 0
  | _ + 1, 0 => 0
  | d + 1, e + 1 => 1 + reach d e + reach d (e + 1)

/-- Inner loop of `classic_dpegg_limit` over `e = 1..E`: does any egg count
reach `F` floors with `d` drops?  (`N = 1 + reach[{d-1,e-1}] + reach[{d-1,e}]`
is definitionally `reach d e`.) -/
def classicHit (F E d : Nat) : Bool :=
  (List.range E).any (fun i => decide (F ≤ reach d (i + 1)))

/-- Outer loop of `classic_dpegg_limit` over `d = 1..F` (fuel counts the
remaining iterations; the loop body returns as soon as some `N ≥ F`). -/
def classicGo (F E : Nat) : Nat → Nat → Int
  | 0, _ => -1
  | fuel + 1, d => if classicHit F E d then (d : Int) else classicGo F E fuel (d + 1)

/-- `classic_dpegg_limit`: the reference reachability recurrence; returns the
first `d ∈ [1, F]` whose reach is at least `F`, and `-1` if none is. -/
def classic_dpegg_limit (F E : Int) : Int :=
  classicGo F.toNat E.toNat F.toNat 1

/-- First-minimum helper: value of the minimum of a list (`0` for `[]`). -/
def listMin : List Int → Int
  | [] => 0
  | [x] => x
  | x :: y :: t => min x (listMin (y :: t))

/-- Tail of `argmin`: scan the remaining values keeping the first position of
the strictly smallest value seen so far (`std::min_element` keeps the first
occurrence of the minimum). -/
def argminGo : List Int → Int → Nat → Nat → Nat
  | [], _, bi, _ => bi
  | y :: ys, b, bi, i => if y < b then argminGo ys y i (i + 1) else argminGo ys b bi (i + 1)

/-- `argmin`: index of the first occurrence of the minimum (`0` on `[]`,
matching `std::distance(begin, end)` for the empty vector). -/
def argmin (v : List Int) : Nat :=
  match v with
  | [] => 0
  | x :: xs => argminGo xs x 0 1

/-- Inner loop of `calc_maximum_value` over the threshold floor `f`:
`n` counts remaining iterations, `f` is the current threshold, `acc` the
running maximum (initial `-1`).  Returns `none` when some successor is
missing from `V` (the C++ sets `all_ok = false` and breaks; the caller only
looks at the flag and the max, and a missing successor always yields the
failure flag, so `Option` captures it exactly). -/
def cmvGo (V : tMap) (s : tState) (a : Int) : Nat → Int → Int → Option Int
  | 0, _, acc => some acc
  | n + 1, f, acc =>
    match V (s.next a f) with
    | none => none
    | some v => cmvGo V s a n (f + 1) (max acc (s.cost a f + v))

/-- `calc_maximum_value`: worst case over all thresholds `f ∈ [lb, ub)` of
`cost + V[next]`, or `none` if some successor is absent from `V`. -/
def calc_maximum_value (s : tState) (action : Int) (V : tMap) : Option Int :=
  cmvGo V s action (s.ub - s.lb).toNat s.lb (-1)

/-- Loop of `find_admissible_actions` over candidate probes `a`.  `prev` is
the worst-case value of the action most recently pushed (if any); when
`brk` (`break_on_increase`) is set and the newly pushed value strictly
exceeds the previous one the scan stops (the increasing action is pushed
first, exactly as in the C++).  The parallel vectors `actions` / `values`
are embedded as one list of pairs. -/
def faaGo (s : tState) (V : tMap) (brk : Bool) : Nat → Int → Option Int → List (Int × Int)
  | 0, _, _ => []
  | n + 1, a, prev =>
    match calc_maximum_value s a V with
    | none => faaGo s V brk n (a + 1) prev
    | some m =>
      if m = -1 then faaGo s V brk n (a + 1) prev
      else
        match prev with
        | none => (a, m) :: faaGo s V brk n (a + 1) (some m)
        | some p =>
          if brk ∧ p < m then [(a, m)]
          else (a, m) :: faaGo s V brk n (a + 1) (some m)

/-- `find_admissible_actions`: all probes `a ∈ (lb, ub)` whose worst-case
value is defined, paired with that value, possibly truncated by the
`break_on_increase` heuristic. -/
def find_admissible_actions (s : tState) (V : tMap) (brk : Bool) : List (Int × Int) :=
  faaGo s V brk (s.ub - s.lb - 1).toNat (s.lb + 1) none

/-- Result of one policy simulation (`run_policy_once` / the inner `while` of
`total_policy_at`).  `missing s` records that the action lookup failed at
`s`: the C++ dereferences the `end()` iterator there (undefined behavior).
`fuelout` is the fuel artifact of the embedding (never hit at the call sites
used by the program, as proved below). -/
inductive SimRes where
  | ok : Nat → List Int → SimRes
  | missing : tState → SimRes
  | fuelout : SimRes

/-- The `while (!s.isterminal())` simulation loop shared by `run_policy_once`
and `total_policy_at`: look up the action, apply `eggdrop`, count the step,
record the probe floor. -/
def run_policy_go (A : tMap) (L : Int) : Nat → tState → SimRes
  | 0, s => if s.isterminal then .ok 0 [] else .fuelout
  | n + 1, s =>
    if s.isterminal then .ok 0 []
    else
      match A s with
      | none => .missing s
      | some a =>
        match run_policy_go A L n ((s.eggdrop a L).1) with
        | .ok k tr => .ok (k + 1) (a :: tr)
        | r => r

/-- `run_policy_once`: run the policy from `(E, 0, F+1)` with true threshold
`L`, returning the number of drops and the probe sequence `aseq`. -/
def run_policy_once (F E L : Int) (A : tMap) : SimRes :=
  run_policy_go A L (F + 1).toNat ⟨E, 0, F + 1⟩

/-- `total_policy_at`: total number of drops, summed over every threshold
`l ∈ [lb, ub)`, of following `A` after first playing `action`.  `none`
records that some inner simulation hit a missing action-table entry
(undefined behavior in the C++) or the fuel bound. -/
def total_policy_at (snaught : tState) (action : Int) (A : tMap) : Option Int :=
  (intsAsc snaught.lb (snaught.ub - snaught.lb).toNat).foldl
    (fun acc l =>
      acc.bind fun t =>
        match run_policy_go A l (snaught.ub - snaught.lb).toNat (snaught.next action l) with
        | .ok k _ => some (t + (1 + (k : Int)))
        | _ => none)
    (some 0)

/-- Loop of `check_policy` over all thresholds `l ∈ [0, F]`, keeping the
maximal realized step count (`max_steps`, initial `0`). -/
def cpGo (F E : Int) (A : tMap) : Nat → Int → Int → Option Int
  | 0, _, mx => some mx
  | n + 1, l, mx =>
    match run_policy_once F E l A with
    | .ok k _ => cpGo F E A n (l + 1) (max mx (k : Int))
    | _ => none

/-- `check_policy`: read the nominal value `V[(E,0,F+1)]`, simulate every
threshold, and compare the realized worst case with the nominal value.
Returns `(max_drops == nominal_value, max_drops)`.  (The `mean_drops`,
`D` and `H` outputs are pure statistics computed alongside and do not
influence the returned flag; `mean_drops` is floating point and is not
modelled.)  `none` models the undefined behavior of a failing `V`/`A`
lookup. -/
def check_policy (F E : Int) (V A : tMap) : Option (Bool × Int) :=
  match V ⟨E, 0, F + 1⟩ with
  | none => none
  | some nominal =>
    (cpGo F E A (F + 1).toNat 0 0).map (fun mx => (decide (mx = nominal), mx))

/-- `initialize_terminal_entries`: insert `V[(e, f, f+1)] = 0` for every
`e ∈ [0, E]`, `f ∈ [0, F]`. -/
def initialize_terminal_entries (F E : Int) : tMap :=
  (intsAsc 0 (E + 1).toNat).foldl
    (fun m e =>
      (intsAsc 0 (F + 1).toNat).foldl (fun m f => mapInsert m ⟨e, f, f + 1⟩ 0) m)
    emptyMap

/-- Mutable data of `single_scan`: the two tables and the two edit
counters. -/
structure BuildSt where
  V : tMap
  A : tMap
  inserts : Nat
  modifies : Nat

/-- The `argmin local_val` / `local_val[i]` selection of `single_scan`:
value of the first minimal entry of the scanned `(action, value)` pairs. -/
def valueOfPairs (pairs : List (Int × Int)) : Int :=
  let vals := pairs.map Prod.snd
  vals.getD (argmin vals) 0

/-- The default tie-break of `single_scan`: collect all actions achieving the
minimal value and pick the middle one (`ties[ties.size() >> 1]`). -/
def chosenOfPairs (pairs : List (Int × Int)) : Int :=
  let vals := pairs.map Prod.snd
  let value := vals.getD (argmin vals) 0
  let ties := (pairs.filter (fun p => decide (p.2 = value))).map Prod.fst
  ties.getD (ties.length / 2) 0

/-- The `--tiebreak` selection of `single_scan`: among the tied actions pick
the one minimizing `total_policy_at` (a failing simulation is undefined
behavior in the C++; it is modelled as total `0`). -/
def chosenTbOfPairs (pairs : List (Int × Int)) (s : tState) (A : tMap) : Int :=
  let vals := pairs.map Prod.snd
  let value := vals.getD (argmin vals) 0
  let ties := (pairs.filter (fun p => decide (p.2 = value))).map Prod.fst
  let tiesTotals := ties.map (fun a => (total_policy_at s a A).getD 0)
  ties.getD (argmin tiesTotals) 0

/-- Value selected by `single_scan` at `s` from the current table. -/
def valueOf (s : tState) (V : tMap) : Int :=
  valueOfPairs (find_admissible_actions s V true)

/-- Action selected by `single_scan` at `s` (default tie-break). -/
def chosenOf (s : tState) (V : tMap) : Int :=
  chosenOfPairs (find_admissible_actions s V true)

/-- Action selected by `single_scan` at `s` (`--tiebreak` rule). -/
def chosenTbOf (s : tState) (V A : tMap) : Int :=
  chosenTbOfPairs (find_admissible_actions s V true) s A

/-- Body of the innermost loop of `single_scan` for the state `(e, l, u)`:
skip existing terminal entries and states without admissible actions,
otherwise insert the freshly computed value/action for a new state, or
overwrite an existing entry whose value strictly improved (or whose value is
equal but whose tie-broken action changed), bumping the respective counter.
(The diagnostic `std::cout` messages of the source have no effect on the
tables and are not modelled.) -/
def processState (tb : Bool) (e l u : Int) (st : BuildSt) : BuildSt :=
  let s : tState := ⟨e, l, u⟩
  if (st.V s).isSome && s.isterminal then st
  else if find_admissible_actions s st.V true = [] then st
  else
    let value := valueOf s st.V
    let action := if tb then chosenTbOf s st.V st.A else chosenOf s st.V
    match st.V s with
    | some oldv =>
      if value < oldv ∨ (oldv = value ∧ st.A s ≠ some action) then
        { st with V := mapInsert st.V s value, A := mapInsert st.A s action,
                  modifies := st.modifies + 1 }
      else st
    | none =>
      { st with V := mapInsert st.V s value, A := mapInsert st.A s action,
                inserts := st.inserts + 1 }

/-- `single_scan`: for each `e ∈ [Emin, Emax]`, sweep `l` from `F` down to
`0` and `u` from `l+1` up to `F+1` (`break_early` is `true` in the source). -/
def single_scan (F Emin Emax : Int) (tb : Bool) (st : BuildSt) : BuildSt :=
  (intsAsc Emin (Emax + 1 - Emin).toNat).foldl
    (fun st e =>
      (intsDesc F (F + 1).toNat).foldl
        (fun st l =>
          (intsAsc (l + 1) (F + 1 - l).toNat).foldl
            (fun st u => processState tb e l u st) st)
        st)
    st

/-- The per-level convergence loop of `main`: rerun `single_scan` (with
freshly zeroed counters) until a scan makes zero inserts and zero
modifications.  The C++ loop is unbounded; `fuel` bounds the number of scans
in the embedding and `none` reports exhaustion. -/
def convergeLevel (F e : Int) (tb : Bool) : Nat → tMap × tMap → Option (tMap × tMap)
  | 0, _ => none
  | fuel + 1, VA =>
    let st := single_scan F e e tb ⟨VA.1, VA.2, 0, 0⟩
    if st.inserts = 0 ∧ st.modifies = 0 then some (st.V, st.A)
    else convergeLevel F e tb fuel (st.V, st.A)

/-- The table-building phase of `main`: initialize the terminal entries, then
converge each egg level `e = 1..E` in increasing order. -/
def buildTables (F E : Int) (tb : Bool) (fuel : Nat) : Option (tMap × tMap) :=
  (intsAsc 1 E.toNat).foldl
    (fun acc e => acc.bind (convergeLevel F e tb fuel))
    (some (initialize_terminal_entries F E, emptyMap))

/-! ## Specification-side definitions

Closed-form description of what the fixed point of the table builder is,
used to state and prove the theorems.  `vstar e w` is the classical optimal
worst-case number of drops for an interval of width `w` (i.e. `w` candidate
positions for the threshold) with `e` eggs. -/

/-- Linear search for the least `d ≥ start` with `target ≤ reach d e`, with
fuel. -/
def vstarGo (e target : Nat) : Nat → Nat → Nat
  | 0, d => d
  | fuel + 1, d => if target ≤ reach d e then d else vstarGo e target fuel (d + 1)

/-- `vstar e w`: least number of drops `d` with `reach d e ≥ w - 1`, the
optimal worst-case drop count from a state of width `w` with `e ≥ 1` eggs
(for `e ≥ 1` the fuel `w` always suffices, since `reach (w-1) e ≥ w - 1`). -/
def vstar (e w : Nat) : Nat :=
  vstarGo e (w - 1) w 0

/-- `vstar` on `Int` coordinates. -/
def vstarI (e w : Int) : Int :=
  (vstar e.toNat w.toNat : Int)

/-- A table whose domain is described by a Boolean guard and whose value at
`(e, lb, ub)` is `vstar e (ub - lb)`. -/
def guardMap (G : tState → Bool) : tMap :=
  fun s => if G s then some (vstarI s.eggs (s.ub - s.lb)) else none

/-- Domain of the value table after level `stage` of the builder has
converged: all terminal states `(e, f, f+1)` with `0 ≤ e ≤ E`,
`0 ≤ f ≤ F`, plus all in-range states whose egg level is in `[1, stage]`. -/
def inDomB (F E stage : Int) (s : tState) : Bool :=
  decide (0 ≤ s.lb ∧ s.lb < s.ub ∧ s.ub ≤ F + 1 ∧ 0 ≤ s.eggs ∧ s.eggs ≤ E ∧
    (s.ub = s.lb + 1 ∨ (1 ≤ s.eggs ∧ s.eggs ≤ stage)))

/-- The value table after level `stage` has converged. -/
def Vstage (F E stage : Int) : tMap :=
  guardMap (inDomB F E stage)

/-- Guard for the value table in the middle of the first scan of level `e`,
just before the state `(e, l, u)` is processed: everything of
`Vstage (e-1)`, plus the level-`e` states already processed in this scan
(`l' > l`, or `l' = l` with `u' < u`). -/
def vrowB (F E e l u : Int) (s : tState) : Bool :=
  inDomB F E (e - 1) s ||
    decide (s.eggs = e ∧ 0 ≤ s.lb ∧ s.lb < s.ub ∧ s.ub ≤ F + 1 ∧
      (l < s.lb ∨ (s.lb = l ∧ s.ub < u)))

/-- The value table in the middle of the first scan of level `e`. -/
def Vrow (F E e l u : Int) : tMap :=
  guardMap (vrowB F E e l u)

/-- Guard for the level-`e` action entries already written during the first
scan of level `e`, just before `(e, l, u)` is processed. -/
def arowB (F E e l u : Int) (s : tState) : Bool :=
  decide (s.eggs = e ∧ 0 ≤ s.lb ∧ s.lb + 1 < s.ub ∧ s.ub ≤ F + 1 ∧
    (l < s.lb ∨ (s.lb = l ∧ s.ub < u)))

/-- The action table in the middle of the first scan of level `e`, overlaid
on the action table `A0` left by the previous levels. -/
def Arow (F E e l u : Int) (A0 : tMap) : tMap := fun s =>
  if arowB F E e l u s then some (chosenOf s (Vstage F E s.eggs)) else A0 s

/-- Guard for the action entries after level `stage` has converged. -/
def astageB (F E stage : Int) (s : tState) : Bool :=
  decide (1 ≤ s.eggs ∧ s.eggs ≤ stage ∧ 0 ≤ s.lb ∧ s.lb + 1 < s.ub ∧
    s.ub ≤ F + 1)

/-- The action table after level `stage` has converged: each reachable
non-terminal state holds the default tie-broken optimal action computed
against the converged value table of its own egg level. -/
def Astage (F E stage : Int) : tMap := fun s =>
  if astageB F E stage s then some (chosenOf s (Vstage F E s.eggs)) else none

/-- Truncation performed by `break_on_increase`, as a pure list operation:
keep taking pairs, remembering the last taken value, and stop right after
the first pair whose value strictly exceeds the previous one. -/
def brkTake : List (Int × Int) → Option Int → List (Int × Int)
  | [], _ => []
  | (a, m) :: rest, none => (a, m) :: brkTake rest (some m)
  | (a, m) :: rest, some p =>
    if p < m then [(a, m)] else (a, m) :: brkTake rest (some m)

/-- Unimodality (valley shape) of a list of values, by positions: some pivot
`i` has the list non-increasing up to `i` and non-decreasing from `i` on.
(The quantifiers are arranged so that decidability is by the standard
bounded-quantifier instances.) -/
def ValleyList (v : List Int) : Prop :=
  ∃ i, i < v.length ∧
    (∀ y, y ≤ i → ∀ x, x ≤ y → v.getD y 0 ≤ v.getD x 0) ∧
    (∀ y, y < v.length → ∀ x, x ≤ y → i ≤ x → v.getD x 0 ≤ v.getD y 0)

instance instDecidableValleyList (v : List Int) : Decidable (ValleyList v) := by
  unfold ValleyList
  infer_instance

/-- Realized step count of `run_policy_once` (with `0` as the don't-care
value on a failed simulation), used to express the maximum taken by
`check_policy`. -/
def stepsOf (F E : Int) (A : tMap) (l : Int) : Nat :=
  match run_policy_once F E l A with
  | .ok k _ => k
  | _ => 0

/-- A hand-crafted value table under which the worst-case value of the
probes `1, 2, 3` from the state `(2, 0, 4)` is `3, 5, 1`: the value list is
not unimodal, so the `break_on_increase` scan stops after `3, 5` and misses
the true minimum `1`. -/
def VNotUnimodal : tMap := fun s =>
  if s = ⟨1, 0, 1⟩ then some 0
  else if s = ⟨2, 1, 4⟩ then some 2
  else if s = ⟨1, 0, 2⟩ then some 4
  else if s = ⟨2, 2, 4⟩ then some 0
  else if s = ⟨1, 0, 3⟩ then some 0
  else if s = ⟨2, 3, 4⟩ then some 0
  else none

/-- A small value table over which the admissible value list at `(2, 0, 4)`
is valley-shaped (`[3, 2, 3]`): per probe `a ∈ {1, 2, 3}` the successors
`(1, 0, a)` and `(2, a, 4)` are present. -/
def VValley : tMap := fun s =>
  if s = ⟨1, 0, 1⟩ then some 0
  else if s = ⟨2, 1, 4⟩ then some 2
  else if s = ⟨1, 0, 2⟩ then some 1
  else if s = ⟨2, 2, 4⟩ then some 1
  else if s = ⟨1, 0, 3⟩ then some 2
  else if s = ⟨2, 3, 4⟩ then some 0
  else none

/-! ## Theorems -/

/-! ### Basic facts about the state model and the integer ranges -/

@[simp] theorem tState_mk_eggs (e l u : Int) : (⟨e, l, u⟩ : tState).eggs = e := rfl

@[simp] theorem tState_mk_lb (e l u : Int) : (⟨e, l, u⟩ : tState).lb = l := rfl

@[simp] theorem tState_mk_ub (e l u : Int) : (⟨e, l, u⟩ : tState).ub = u := rfl

theorem isterminal_false_of_wide (s : tState) (h : s.lb + 1 < s.ub) :
    s.isterminal = false := by
  simp [tState.isterminal]; omega

theorem next_break (s : tState) (p L : Int) (h : L < p) :
    s.next p L = ⟨s.eggs - 1, s.lb, if p < s.ub then p else s.ub⟩ := by
  simp [tState.next, tState.eggdrop, h]

theorem next_nobreak (s : tState) (p L : Int) (h : ¬ L < p) :
    s.next p L = ⟨s.eggs, if s.lb < p then p else s.lb, s.ub⟩ := by
  simp [tState.next, tState.eggdrop, h]

theorem next_mk_break {e l u p L : Int} (h : L < p) (h2 : p < u) :
    (⟨e, l, u⟩ : tState).next p L = ⟨e - 1, l, p⟩ := by
  simp [tState.next, tState.eggdrop, h, h2]

theorem next_mk_nobreak {e l u p L : Int} (h : ¬ L < p) (h2 : l < p) :
    (⟨e, l, u⟩ : tState).next p L = ⟨e, p, u⟩ := by
  simp [tState.next, tState.eggdrop, h, h2]

theorem next_step_facts (s : tState) (p L : Int)
    (hlb : 0 ≤ s.lb) (h1 : s.lb < p) (h2 : p < s.ub) :
    0 ≤ (s.next p L).lb ∧ (s.next p L).lb < (s.next p L).ub ∧
      (s.next p L).ub - (s.next p L).lb < s.ub - s.lb := by
  by_cases hc : L < p
  · rw [next_break s p L hc]
    constructor
    · exact hlb
    constructor
    · simp only; split <;> omega
    · simp only; split <;> omega
  · rw [next_nobreak s p L hc]
    constructor
    · simp only; split <;> omega
    constructor
    · simp only; split <;> omega
    · simp only; split <;> omega

theorem intsAsc_length (lo : Int) (n : Nat) : (intsAsc lo n).length = n := by
  induction n generalizing lo with
  | zero => rfl
  | succ n ih => simp [intsAsc, ih]

theorem mem_intsAsc {x : Int} : ∀ {n : Nat} {lo : Int},
    x ∈ intsAsc lo n ↔ lo ≤ x ∧ x < lo + n := by
  intro n
  induction n with
  | zero => intro lo; simp [intsAsc]; try omega
  | succ n ih => intro lo; simp [intsAsc, ih]; omega

theorem intsAsc_getD : ∀ {n : Nat} {lo : Int} {k : Nat}, k < n →
    (intsAsc lo n).getD k 0 = lo + k := by
  intro n
  induction n with
  | zero => intro lo k h; omega
  | succ n ih =>
    intro lo k h
    cases k with
    | zero => simp [intsAsc]
    | succ k =>
      have h2 : k < n := by omega
      calc (intsAsc lo (n + 1)).getD (k + 1) 0
          = (intsAsc (lo + 1) n).getD k 0 := by
            simp [intsAsc, List.getD_cons_succ]
        _ = (lo + 1) + k := ih h2
        _ = lo + ((k + 1 : Nat) : Int) := by push_cast; ring

theorem mem_intsDesc {x : Int} : ∀ {n : Nat} {hi : Int},
    x ∈ intsDesc hi n ↔ hi - n < x ∧ x ≤ hi := by
  intro n
  induction n with
  | zero => intro hi; simp [intsDesc]; try omega
  | succ n ih => intro hi; simp [intsDesc, ih]; omega

/-- C8 (functional_correctness): the transition `tState::next` is pure; with
`lb < p < ub`, a breaking probe (`p > L`) removes one egg and shrinks the
upper bound to `min(ub, p)` leaving `lb` unchanged, and a surviving probe
raises the lower bound to `max(lb, p)` leaving `eggs` and `ub` unchanged;
the cost of any single transition is exactly `1`. -/
theorem spec_next_transition (s : tState) (p L : Int)
    (h1 : s.lb < p) (h2 : p < s.ub) :
    (L < p → s.next p L = ⟨s.eggs - 1, s.lb, min s.ub p⟩) ∧
    (¬ L < p → s.next p L = ⟨s.eggs, max s.lb p, s.ub⟩) ∧
    s.cost p L = 1 := by
  refine ⟨fun hc => ?_, fun hc => ?_, rfl⟩
  · rw [next_break s p L hc]
    have : (if p < s.ub then p else s.ub) = min s.ub p := by
      rcases le_or_lt s.ub p with h | h
      · simp [min_eq_left h]; omega
      · simp [min_eq_right (le_of_lt h), if_pos h]
    rw [this]
  · rw [next_nobreak s p L hc]
    have : (if s.lb < p then p else s.lb) = max s.lb p := by
      rcases le_or_lt p s.lb with h | h
      · simp [max_eq_left h]; omega
      · simp [max_eq_right (le_of_lt h), if_pos h]
    rw [this]

theorem spec_next_transition_witness :
    ((⟨2, 1, 5⟩ : tState).lb < 3 ∧ (3 : Int) < (⟨2, 1, 5⟩ : tState).ub) ∧
    ((2 < (3:Int) → (⟨2, 1, 5⟩ : tState).next 3 2 = ⟨1, 1, min 5 3⟩) ∧
     (¬ (2:Int) < 3 → (⟨2, 1, 5⟩ : tState).next 3 2 = ⟨2, max 1 3, 5⟩) ∧
     (⟨2, 1, 5⟩ : tState).cost 3 2 = 1) :=
  ⟨⟨by decide, by decide⟩, spec_next_transition ⟨2, 1, 5⟩ 3 2 (by decide) (by decide)⟩

theorem iter_reaches_terminal (probe Lf : tState → Int)
    (hp : ∀ t : tState, 0 ≤ t.lb → t.lb + 1 < t.ub → t.lb < probe t ∧ probe t < t.ub) :
    ∀ (n : Nat) (s : tState), 0 ≤ s.lb → s.lb < s.ub → (s.ub - s.lb).toNat ≤ n + 1 →
      ∃ k : Nat, (k : Int) ≤ s.ub - s.lb - 1 ∧
        (((fun t => t.next (probe t) (Lf t))^[k]) s).ub =
          (((fun t => t.next (probe t) (Lf t))^[k]) s).lb + 1 := by
  intro n
  induction n with
  | zero =>
    intro s h1 h2 h3
    refine ⟨0, by omega, ?_⟩
    simp only [Function.iterate_zero, id]
    omega
  | succ n ih =>
    intro s h1 h2 h3
    by_cases hterm : s.ub = s.lb + 1
    · exact ⟨0, by omega, by simpa using hterm⟩
    · have hw : s.lb + 1 < s.ub := by omega
      obtain ⟨ha1, ha2⟩ := hp s h1 hw
      obtain ⟨hn1, hn2, hn3⟩ :=
        next_step_facts s (probe s) (Lf s) h1 ha1 ha2
      obtain ⟨k, hk1, hk2⟩ := ih (s.next (probe s) (Lf s)) hn1 hn2 (by omega)
      refine ⟨k + 1, by push_cast; omega, ?_⟩
      rw [Function.iterate_succ_apply]
      exact hk2

/-- C10 (invariants): with `0 ≤ lb < ub` and an in-range probe
`lb < p < ub`, the successor `next(p, L)` again satisfies `0 ≤ lb < ub` and
its interval is strictly narrower; consequently, repeatedly applying
transitions with in-range probes reaches a state with `ub = lb + 1`
within at most `ub - lb - 1` steps. -/
theorem spec_transition_invariant_and_termination (s : tState) (p L : Int)
    (hlb : 0 ≤ s.lb) (hw : s.lb < s.ub) (h1 : s.lb < p) (h2 : p < s.ub) :
    (0 ≤ (s.next p L).lb ∧ (s.next p L).lb < (s.next p L).ub ∧
      (s.next p L).ub - (s.next p L).lb < s.ub - s.lb) ∧
    (∀ (probe Lf : tState → Int),
      (∀ t : tState, 0 ≤ t.lb → t.lb + 1 < t.ub → t.lb < probe t ∧ probe t < t.ub) →
      ∃ k : Nat, (k : Int) ≤ s.ub - s.lb - 1 ∧
        (((fun t => t.next (probe t) (Lf t))^[k]) s).ub =
          (((fun t => t.next (probe t) (Lf t))^[k]) s).lb + 1) := by
  refine ⟨next_step_facts s p L hlb h1 h2, fun probe Lf hp => ?_⟩
  exact iter_reaches_terminal probe Lf hp (s.ub - s.lb).toNat s hlb hw (by omega)

theorem spec_transition_invariant_and_termination_witness :
    ((0:Int) ≤ (⟨2, 0, 4⟩ : tState).lb ∧ (⟨2, 0, 4⟩ : tState).lb < (⟨2, 0, 4⟩ : tState).ub ∧
      (⟨2, 0, 4⟩ : tState).lb < 2 ∧ (2:Int) < (⟨2, 0, 4⟩ : tState).ub) ∧
    ((0 ≤ ((⟨2, 0, 4⟩ : tState).next 2 1).lb ∧
      ((⟨2, 0, 4⟩ : tState).next 2 1).lb < ((⟨2, 0, 4⟩ : tState).next 2 1).ub ∧
      ((⟨2, 0, 4⟩ : tState).next 2 1).ub - ((⟨2, 0, 4⟩ : tState).next 2 1).lb <
        (⟨2, 0, 4⟩ : tState).ub - (⟨2, 0, 4⟩ : tState).lb) ∧
    (∀ (probe Lf : tState → Int),
      (∀ t : tState, 0 ≤ t.lb → t.lb + 1 < t.ub → t.lb < probe t ∧ probe t < t.ub) →
      ∃ k : Nat, (k : Int) ≤ (⟨2, 0, 4⟩ : tState).ub - (⟨2, 0, 4⟩ : tState).lb - 1 ∧
        (((fun t : tState => t.next (probe t) (Lf t))^[k]) ⟨2, 0, 4⟩).ub =
          (((fun t : tState => t.next (probe t) (Lf t))^[k]) ⟨2, 0, 4⟩).lb + 1)) :=
  ⟨⟨by decide, by decide, by decide, by decide⟩,
    spec_transition_invariant_and_termination ⟨2, 0, 4⟩ 2 1
      (by decide) (by decide) (by decide) (by decide)⟩

/-! ### The classical reachability recurrence and the optimal value `vstar` -/

theorem reach_zero_eggs (d : Nat) : reach d 0 = 0 := by
  cases d <;> rfl

theorem reach_succ (d e : Nat) :
    reach (d + 1) (e + 1) = 1 + reach d e + reach d (e + 1) := rfl

theorem reach_one_egg (d : Nat) : reach d 1 = d := by
  induction d with
  | zero => rfl
  | succ d ih => rw [reach_succ, reach_zero_eggs, ih]; omega

theorem reach_mono_d_succ (d e : Nat) : reach d e ≤ reach (d + 1) e := by
  induction d generalizing e with
  | zero => cases e <;> simp [reach]
  | succ d ih =>
    cases e with
    | zero => simp [reach_zero_eggs]
    | succ e =>
      rw [reach_succ, reach_succ]
      have h1 := ih e
      have h2 := ih (e + 1)
      omega

theorem reach_mono_d {d d' : Nat} (e : Nat) (h : d ≤ d') : reach d e ≤ reach d' e := by
  induction d' with
  | zero => simp_all
  | succ d' ih =>
    rcases Nat.lt_or_ge d (d' + 1) with h2 | h2
    · exact le_trans (ih (by omega)) (reach_mono_d_succ d' e)
    · have : d = d' + 1 := by omega
      subst this; rfl

theorem reach_mono_e_succ (d e : Nat) : reach d e ≤ reach d (e + 1) := by
  induction d generalizing e with
  | zero => simp [reach]
  | succ d ih =>
    cases e with
    | zero => simp [reach_zero_eggs]
    | succ e =>
      rw [reach_succ, reach_succ]
      have h1 := ih e
      have h2 := ih (e + 1)
      omega

theorem reach_mono_e {e e' : Nat} (d : Nat) (h : e ≤ e') : reach d e ≤ reach d e' := by
  induction e' with
  | zero => simp_all
  | succ e' ih =>
    rcases Nat.lt_or_ge e (e' + 1) with h2 | h2
    · exact le_trans (ih (by omega)) (reach_mono_e_succ d e')
    · have : e = e' + 1 := by omega
      subst this; rfl

theorem vstarGo_found {e t : Nat} : ∀ {fuel d : Nat},
    (∃ j, j < fuel ∧ t ≤ reach (d + j) e) → t ≤ reach (vstarGo e t fuel d) e := by
  intro fuel
  induction fuel with
  | zero => intro d h; omega
  | succ fuel ih =>
    intro d h
    by_cases hd : t ≤ reach d e
    · simpa [vstarGo, hd] using hd
    · rw [vstarGo, if_neg hd]
      obtain ⟨j, hj, hr⟩ := h
      rcases j with _ | j
      · simp only [Nat.add_zero] at hr
        exact absurd hr hd
      · refine ih ⟨j, by omega, ?_⟩
        have harith : d + 1 + j = d + (j + 1) := by omega
        rw [harith]
        exact hr

theorem vstarGo_least {e t : Nat} : ∀ {fuel d d' : Nat},
    d ≤ d' → d' < vstarGo e t fuel d → reach d' e < t := by
  intro fuel
  induction fuel with
  | zero => intro d d' h1 h2; simp [vstarGo] at h2; omega
  | succ fuel ih =>
    intro d d' h1 h2
    by_cases hd : t ≤ reach d e
    · rw [vstarGo, if_pos hd] at h2; omega
    · rw [vstarGo, if_neg hd] at h2
      rcases Nat.eq_or_lt_of_le h1 with h3 | h3
      · subst h3; omega
      · exact ih h3 h2

theorem vstar_least {e w d : Nat} (h : d < vstar e w) : reach d e < w - 1 :=
  vstarGo_least (Nat.zero_le d) h

theorem vstar_le_of {e w d : Nat} (h : w - 1 ≤ reach d e) : vstar e w ≤ d := by
  by_contra hc
  have := vstar_least (Nat.lt_of_not_le hc)
  omega

theorem vstar_reaches {e : Nat} (he : 1 ≤ e) (w : Nat) :
    w - 1 ≤ reach (vstar e w) e := by
  rcases Nat.eq_zero_or_pos w with h | h
  · subst h; simp
  · refine vstarGo_found ⟨w - 1, by omega, ?_⟩
    have h1 : w - 1 ≤ reach (w - 1) 1 := by rw [reach_one_egg]
    calc w - 1 ≤ reach (w - 1) 1 := h1
      _ ≤ reach (w - 1) e := reach_mono_e _ he
      _ = reach (0 + (w - 1)) e := by rw [Nat.zero_add]

theorem vstar_width_one (e : Nat) : vstar e 1 = 0 := by
  simp [vstar, vstarGo]

theorem vstar_one_egg (w : Nat) : vstar 1 w = w - 1 := by
  refine le_antisymm (vstar_le_of (by rw [reach_one_egg])) ?_
  have := vstar_reaches (le_refl 1) w
  rw [reach_one_egg] at this
  exact this

theorem vstar_le_width {e w : Nat} (he : 1 ≤ e) : vstar e w ≤ w - 1 :=
  vstar_le_of (le_trans (by rw [reach_one_egg]) (reach_mono_e _ he))

theorem vstar_pos {e w : Nat} (he : 1 ≤ e) (hw : 2 ≤ w) : 1 ≤ vstar e w := by
  by_contra hc
  have h0 : vstar e w = 0 := by omega
  have := vstar_reaches he w
  rw [h0] at this
  cases e <;> simp [reach] at this <;> omega

theorem vstar_mono_w {e w w' : Nat} (he : 1 ≤ e) (h : w ≤ w') :
    vstar e w ≤ vstar e w' :=
  vstar_le_of (le_trans (by omega) (vstar_reaches he w'))

theorem vstar_anti_e {e d w : Nat} (he : 1 ≤ e) (h : e ≤ d) :
    vstar d w ≤ vstar e w :=
  vstar_le_of (le_trans (vstar_reaches he w) (reach_mono_e _ h))

/-- Bellman lower bound: any split `k` of a width-`w` interval costs at least
`vstar e w`. -/
theorem bellman_ge {e w k : Nat} (he : 2 ≤ e) (hk1 : 1 ≤ k) (hk2 : k ≤ w - 1)
    (hw : 2 ≤ w) :
    vstar e w ≤ 1 + max (vstar (e - 1) k) (vstar e (w - k)) := by
  obtain ⟨e', rfl⟩ : ∃ e', e = e' + 1 := ⟨e - 1, by omega⟩
  have he' : 1 ≤ e' := by omega
  simp only [Nat.add_sub_cancel]
  set m := max (vstar e' k) (vstar (e' + 1) (w - k)) with hm
  have h1 : k - 1 ≤ reach m e' :=
    le_trans (vstar_reaches he' k) (reach_mono_d _ (le_max_left _ _))
  have h2 : (w - k) - 1 ≤ reach m (e' + 1) :=
    le_trans (vstar_reaches (by omega) (w - k)) (reach_mono_d _ (le_max_right _ _))
  refine vstar_le_of ?_
  rw [Nat.add_comm 1 m, reach_succ]
  omega

/-- Bellman upper bound: some split `k` of a width-`w` interval achieves
`vstar e w`. -/
theorem bellman_le_exists {e w : Nat} (he : 2 ≤ e) (hw : 2 ≤ w) :
    ∃ k, 1 ≤ k ∧ k ≤ w - 1 ∧
      1 + max (vstar (e - 1) k) (vstar e (w - k)) ≤ vstar e w := by
  obtain ⟨e', rfl⟩ : ∃ e', e = e' + 1 := ⟨e - 1, by omega⟩
  have he' : 1 ≤ e' := by omega
  simp only [Nat.add_sub_cancel]
  have hd1 : 1 ≤ vstar (e' + 1) w := vstar_pos (by omega) hw
  obtain ⟨d', hd⟩ : ∃ d', vstar (e' + 1) w = d' + 1 :=
    ⟨vstar (e' + 1) w - 1, by omega⟩
  set k := reach d' e' + 1 with hk
  have hkw : k ≤ w - 1 := by
    by_contra hc
    have h1 : w - 1 ≤ reach d' e' := by omega
    have h2 : vstar (e' + 1) w ≤ d' :=
      vstar_le_of (le_trans h1 (reach_mono_e _ (by omega)))
    omega
  have hreach : w - 1 ≤ reach (d' + 1) (e' + 1) := by
    have hr := vstar_reaches (e := e' + 1) (by omega) w
    rw [hd] at hr
    exact hr
  rw [reach_succ] at hreach
  have hv1 : vstar e' k ≤ d' := vstar_le_of (by omega)
  have hv2 : vstar (e' + 1) (w - k) ≤ d' := vstar_le_of (by omega)
  refine ⟨k, by omega, hkw, ?_⟩
  have hmax := max_le hv1 hv2
  omega

/-- The exact Bellman identity for `e ≥ 2`, `w ≥ 2`. -/
theorem bellman_min {e w : Nat} (he : 2 ≤ e) (hw : 2 ≤ w) :
    ∃ k, 1 ≤ k ∧ k ≤ w - 1 ∧
      1 + max (vstar (e - 1) k) (vstar e (w - k)) = vstar e w ∧
      ∀ k', 1 ≤ k' → k' ≤ w - 1 →
        vstar e w ≤ 1 + max (vstar (e - 1) k') (vstar e (w - k')) := by
  obtain ⟨k, h1, h2, h3⟩ := bellman_le_exists he hw
  exact ⟨k, h1, h2, le_antisymm h3 (bellman_ge he h1 h2 hw), fun k' hk1 hk2 =>
    bellman_ge he hk1 hk2 hw⟩

/-! ### `classic_dpegg_limit` computes `vstar` -/

theorem classicHit_iff {F E d : Nat} (hE : 1 ≤ E) :
    classicHit F E d = true ↔ F ≤ reach d E := by
  constructor
  · intro h
    simp only [classicHit, List.any_eq_true, List.mem_range, decide_eq_true_eq] at h
    obtain ⟨i, hi, hr⟩ := h
    exact le_trans hr (reach_mono_e _ (by omega))
  · intro h
    simp only [classicHit, List.any_eq_true, List.mem_range, decide_eq_true_eq]
    exact ⟨E - 1, by omega, by rwa [show E - 1 + 1 = E by omega]⟩

theorem classicGo_eq {F E : Nat} : ∀ {fuel d dstar : Nat},
    d ≤ dstar → dstar < d + fuel → classicHit F E dstar = true →
    (∀ x, d ≤ x → x < dstar → classicHit F E x = false) →
    classicGo F E fuel d = (dstar : Int) := by
  intro fuel
  induction fuel with
  | zero => intro d dstar h1 h2; omega
  | succ fuel ih =>
    intro d dstar h1 h2 h3 h4
    rcases Nat.eq_or_lt_of_le h1 with h5 | h5
    · subst h5
      rw [classicGo, if_pos h3]
    · have hne : classicHit F E d = false := h4 d (le_refl d) h5
      rw [classicGo, if_neg (by simp [hne])]
      exact ih h5 (by omega) h3 (fun x hx1 hx2 => h4 x (by omega) hx2)

/-- For valid inputs, `classic_dpegg_limit F E` equals the optimal value
`vstar E (F+1)` of the full-width instance. -/
theorem classic_eq_vstar {F E : Int} (hF : 1 ≤ F) (hE : 1 ≤ E) :
    classic_dpegg_limit F E = vstarI E (F + 1) := by
  have hFn : 1 ≤ F.toNat := by omega
  have hEn : 1 ≤ E.toNat := by omega
  have hw : (F + 1).toNat = F.toNat + 1 := by omega
  have hds1 : 1 ≤ vstar E.toNat (F.toNat + 1) := vstar_pos hEn (by omega)
  have hds2 : vstar E.toNat (F.toNat + 1) ≤ F.toNat := by
    have := vstar_le_width (e := E.toNat) (w := F.toNat + 1) hEn
    omega
  have hhit : classicHit F.toNat E.toNat (vstar E.toNat (F.toNat + 1)) = true := by
    rw [classicHit_iff hEn]
    have := vstar_reaches hEn (F.toNat + 1)
    simpa using this
  have hlow : ∀ x, 1 ≤ x → x < vstar E.toNat (F.toNat + 1) →
      classicHit F.toNat E.toNat x = false := by
    intro x hx1 hx2
    have hlt := vstar_least hx2
    rw [Bool.eq_false_iff]
    intro hc
    rw [classicHit_iff hEn] at hc
    omega
  unfold classic_dpegg_limit vstarI
  rw [hw]
  exact classicGo_eq hds1 (by omega) hhit hlow

/-! ### `listMin`, `argmin` and the tie selection -/

theorem listMin_cons (x : Int) (l : List Int) (h : l ≠ []) :
    listMin (x :: l) = min x (listMin l) := by
  cases l with
  | nil => exact absurd rfl h
  | cons y t => rfl

theorem listMin_le_mem : ∀ (l : List Int) (x : Int), x ∈ l → listMin l ≤ x := by
  intro l
  induction l with
  | nil => intro x h; simp at h
  | cons y t ih =>
    intro x h
    cases t with
    | nil => simp at h; simp [listMin, h]
    | cons z t2 =>
      rw [listMin_cons y _ (by simp)]
      rcases List.mem_cons.mp h with h2 | h2
      · subst h2; exact min_le_left _ _
      · exact le_trans (min_le_right _ _) (ih x h2)

theorem listMin_mem : ∀ (l : List Int), l ≠ [] → listMin l ∈ l := by
  intro l
  induction l with
  | nil => intro h; exact absurd rfl h
  | cons y t ih =>
    intro _
    cases t with
    | nil => simp [listMin]
    | cons z t2 =>
      rw [listMin_cons y _ (by simp)]
      rcases le_total y (listMin (z :: t2)) with h2 | h2
      · simp [min_eq_left h2]
      · rw [min_eq_right h2]
        exact List.mem_cons_of_mem _ (ih (by simp))

theorem argminGo_val : ∀ (ys : List Int) (v : List Int) (b : Int) (bi i : Nat),
    bi < v.length → v.getD bi 0 = b →
    (∀ k, k < ys.length → v.getD (i + k) 0 = ys.getD k 0) →
    i + ys.length ≤ v.length →
    argminGo ys b bi i < v.length ∧
      v.getD (argminGo ys b bi i) 0 = listMin (b :: ys) := by
  intro ys
  induction ys with
  | nil =>
    intro v b bi i h1 h2 h3 h4
    exact ⟨h1, by simpa [argminGo, listMin] using h2⟩
  | cons y ys ih =>
    intro v b bi i h1 h2 h3 h4
    have hy : v.getD i 0 = y := by simpa using h3 0 (by simp)
    have hshift : ∀ k, k < ys.length → v.getD (i + 1 + k) 0 = ys.getD k 0 := by
      intro k hk
      have := h3 (k + 1) (by simp only [List.length_cons]; omega)
      rwa [show i + (k + 1) = i + 1 + k by omega, List.getD_cons_succ] at this
    rw [listMin_cons b (y :: ys) (by simp)]
    by_cases hc : y < b
    · rw [argminGo, if_pos hc]
      obtain ⟨r1, r2⟩ := ih v y i (i + 1) (by simp at h4; omega) hy hshift (by simp at h4 ⊢; omega)
      refine ⟨r1, ?_⟩
      rw [r2]
      have hmle : listMin (y :: ys) ≤ y := listMin_le_mem _ y (by simp)
      rw [min_eq_right (by omega)]
    · rw [argminGo, if_neg hc]
      obtain ⟨r1, r2⟩ := ih v b bi (i + 1) h1 h2 hshift (by simp at h4 ⊢; omega)
      refine ⟨r1, ?_⟩
      rw [r2]
      cases ys with
      | nil => simp [listMin] at *; omega
      | cons z t =>
        rw [listMin_cons b (z :: t) (by simp), listMin_cons y (z :: t) (by simp),
          ← min_assoc, min_eq_left (by omega : b ≤ y)]

theorem argmin_getD (v : List Int) (h : v ≠ []) :
    argmin v < v.length ∧ v.getD (argmin v) 0 = listMin v := by
  cases v with
  | nil => exact absurd rfl h
  | cons x xs =>
    have := argminGo_val xs (x :: xs) x 0 1 (by simp) (by simp)
      (fun k hk => by rw [show 1 + k = k + 1 by omega, List.getD_cons_succ])
      (by simp only [List.length_cons]; omega)
    simpa [argmin] using this

theorem getD_mem_of_lt {l : List Int} {n : Nat} (h : n < l.length) :
    l.getD n 0 ∈ l := by
  rw [List.getD_eq_getElem l 0 h]
  exact List.getElem_mem h

theorem valueOfPairs_eq_listMin (pairs : List (Int × Int)) (h : pairs ≠ []) :
    valueOfPairs pairs = listMin (pairs.map Prod.snd) := by
  have hne : pairs.map Prod.snd ≠ [] := by simpa using h
  exact (argmin_getD _ hne).2

theorem ties_getD_mem (pairs : List (Int × Int)) (h : pairs ≠ []) (idx : Nat)
    (hidx : idx < ((pairs.filter
        (fun p => decide (p.2 = valueOfPairs pairs))).map Prod.fst).length) :
    (((pairs.filter (fun p => decide (p.2 = valueOfPairs pairs))).map
        Prod.fst).getD idx 0, valueOfPairs pairs) ∈ pairs := by
  have hmem := getD_mem_of_lt hidx
  rw [List.mem_map] at hmem
  obtain ⟨q, hq1, hq2⟩ := hmem
  have hq3 : q ∈ pairs := List.mem_of_mem_filter hq1
  have hq4 : q.2 = valueOfPairs pairs := by
    have := List.of_mem_filter hq1
    simpa using this
  have : (((pairs.filter (fun p => decide (p.2 = valueOfPairs pairs))).map
      Prod.fst).getD idx 0, valueOfPairs pairs) = q := by
    rw [← hq2, ← hq4]
  rw [this]
  exact hq3

theorem ties_nonempty (pairs : List (Int × Int)) (h : pairs ≠ []) :
    ((pairs.filter (fun p => decide (p.2 = valueOfPairs pairs))).map
      Prod.fst).length ≠ 0 := by
  have hne : pairs.map Prod.snd ≠ [] := by simpa using h
  have hmm : valueOfPairs pairs ∈ pairs.map Prod.snd := by
    rw [valueOfPairs_eq_listMin pairs h]
    exact listMin_mem _ hne
  rw [List.mem_map] at hmm
  obtain ⟨q, hq1, hq2⟩ := hmm
  have : q ∈ pairs.filter (fun p => decide (p.2 = valueOfPairs pairs)) :=
    List.mem_filter.mpr ⟨hq1, by simp [hq2]⟩
  simp only [List.length_map, ne_eq, List.length_eq_zero]
  intro hc
  rw [hc] at this
  simp at this

/-- The action selected by the default tie-break, paired with the selected
value, is one of the scanned pairs. -/
theorem chosen_mem_pairs (pairs : List (Int × Int)) (h : pairs ≠ []) :
    (chosenOfPairs pairs, valueOfPairs pairs) ∈ pairs := by
  have hlen := ties_nonempty pairs h
  have hlt : ((pairs.filter (fun p => decide (p.2 = valueOfPairs pairs))).map
        Prod.fst).length / 2 <
      ((pairs.filter (fun p => decide (p.2 = valueOfPairs pairs))).map
        Prod.fst).length :=
    Nat.div_lt_self (by omega) (by omega)
  exact ties_getD_mem pairs h _ hlt

/-! ### Analysis of `calc_maximum_value` -/

theorem cmvGo_congr {V1 V2 : tMap} {s : tState} {a : Int} :
    ∀ (n : Nat) (f acc : Int),
    (∀ j : Nat, j < n → V1 (s.next a (f + j)) = V2 (s.next a (f + j))) →
    cmvGo V1 s a n f acc = cmvGo V2 s a n f acc := by
  intro n
  induction n with
  | zero => intro f acc h; rfl
  | succ n ih =>
    intro f acc h
    have h0 : V1 (s.next a f) = V2 (s.next a f) := by simpa using h 0 (by omega)
    rw [cmvGo, cmvGo, h0]
    cases V2 (s.next a f) with
    | none => rfl
    | some v =>
      exact ih (f + 1) _ (fun j hj => by
        have := h (j + 1) (by omega)
        rwa [show f + (j + 1 : Nat) = f + 1 + j by push_cast; ring] at this)

theorem cmvGo_some_imp {V : tMap} {s : tState} {a : Int} :
    ∀ {n : Nat} {f acc m : Int}, cmvGo V s a n f acc = some m →
    ∀ j : Nat, j < n → (V (s.next a (f + j))).isSome := by
  intro n
  induction n with
  | zero => intro f acc m h j hj; omega
  | succ n ih =>
    intro f acc m h j hj
    rw [cmvGo] at h
    cases hV : V (s.next a f) with
    | none => rw [hV] at h; exact absurd h (by simp)
    | some v =>
      rw [hV] at h
      rcases j with _ | j
      · simpa using (by rw [hV]; simp : (V (s.next a f)).isSome)
      · have := ih h j (by omega)
        rwa [show f + 1 + j = f + (j + 1 : Nat) by push_cast; ring] at this

theorem cmvGo_const {V : tMap} {s : tState} {a x : Int} :
    ∀ (n : Nat) (f acc : Int),
    (∀ j : Nat, j < n → V (s.next a (f + j)) = some x) →
    cmvGo V s a n f acc = some (if n = 0 then acc else max acc (1 + x)) := by
  intro n
  induction n with
  | zero => intro f acc h; rfl
  | succ n ih =>
    intro f acc h
    have h0 : V (s.next a f) = some x := by simpa using h 0 (by omega)
    have hstep := ih (f + 1) (max acc (s.cost a f + x)) (fun j hj => by
      have := h (j + 1) (by omega)
      rwa [show f + (j + 1 : Nat) = f + 1 + j by push_cast; ring] at this)
    simp only [cmvGo, h0, hstep]
    rcases Nat.eq_zero_or_pos n with hn | hn
    · simp [hn, tState.cost]
    · rw [if_neg (by omega), if_neg (by omega)]
      simp [tState.cost, max_assoc]

theorem cmvGo_append {V : tMap} {s : tState} {a : Int} :
    ∀ (n1 n2 : Nat) (f acc : Int),
    cmvGo V s a (n1 + n2) f acc =
      (cmvGo V s a n1 f acc).bind (fun acc2 => cmvGo V s a n2 (f + n1) acc2) := by
  intro n1
  induction n1 with
  | zero => intro n2 f acc; simp [cmvGo]
  | succ n1 ih =>
    intro n2 f acc
    rw [show n1 + 1 + n2 = (n1 + n2) + 1 by omega]
    cases hV : V (s.next a f) with
    | none => simp [cmvGo, hV]
    | some v =>
      simp only [cmvGo, hV]
      rw [ih n2 (f + 1) _]
      have harith : f + 1 + (n1 : Int) = f + ((n1 + 1 : Nat) : Int) := by push_cast; ring
      rw [harith]

/-- Two-plateau evaluation of `calc_maximum_value`: if all breaking
successors have stored value `x` and all surviving ones value `y`, the
computed worst case is `max (max (-1) (1+x)) (1+y)`. -/
theorem calc_split {V : tMap} {s : tState} {a x y : Int}
    (ha1 : s.lb < a) (ha2 : a < s.ub)
    (hx : ∀ f, s.lb ≤ f → f < a → V (s.next a f) = some x)
    (hy : ∀ f, a ≤ f → f < s.ub → V (s.next a f) = some y) :
    calc_maximum_value s a V = some (max (max (-1) (1 + x)) (1 + y)) := by
  have hn : (s.ub - s.lb).toNat = (a - s.lb).toNat + (s.ub - a).toNat := by omega
  unfold calc_maximum_value
  rw [hn, cmvGo_append]
  have h1 : cmvGo V s a (a - s.lb).toNat s.lb (-1) = some (max (-1) (1 + x)) := by
    rw [cmvGo_const _ _ _ (fun j hj => hx (s.lb + j) (by omega) (by omega))]
    rw [if_neg (by omega)]
  rw [h1]
  have hfa : s.lb + ((a - s.lb).toNat : Int) = a := by omega
  simp only [Option.some_bind, hfa]
  rw [cmvGo_const _ _ _ (fun j hj => hy (a + j) (by omega) (by omega))]
  rw [if_neg (by omega)]

theorem calc_some_imp_present {V : tMap} {s : tState} {a m : Int}
    (h : calc_maximum_value s a V = some m) :
    ∀ f, s.lb ≤ f → f < s.ub → (V (s.next a f)).isSome := by
  intro f hf1 hf2
  have := cmvGo_some_imp h (f - s.lb).toNat (by omega)
  rwa [show s.lb + ((f - s.lb).toNat : Int) = f by omega] at this

theorem calc_congr {V1 V2 : tMap} {s : tState} {a : Int}
    (h : ∀ f, s.lb ≤ f → f < s.ub → V1 (s.next a f) = V2 (s.next a f)) :
    calc_maximum_value s a V1 = calc_maximum_value s a V2 := by
  unfold calc_maximum_value
  exact cmvGo_congr _ _ _ (fun j hj => h (s.lb + j) (by omega) (by omega))

/-! ### Analysis of `find_admissible_actions` and the break heuristic -/

theorem brkTake_subset : ∀ (ps : List (Int × Int)) (prev : Option Int) (x : Int × Int),
    x ∈ brkTake ps prev → x ∈ ps := by
  intro ps
  induction ps with
  | nil => intro prev x h; simpa [brkTake] using h
  | cons q rest ih =>
    intro prev x h
    cases prev with
    | none =>
      rw [brkTake] at h
      rcases List.mem_cons.mp h with h2 | h2
      · simp [h2]
      · exact List.mem_cons_of_mem _ (ih _ _ h2)
    | some p =>
      rw [brkTake] at h
      by_cases hc : p < q.2
      · rw [if_pos hc] at h
        simp at h
        simp [h]
      · rw [if_neg hc] at h
        rcases List.mem_cons.mp h with h2 | h2
        · simp [h2]
        · exact List.mem_cons_of_mem _ (ih _ _ h2)

theorem brkTake_pivot_mem : ∀ (ps : List (Int × Int)) (i : Nat) (prev : Option Int),
    i < ps.length →
    (∀ x y : Nat, x ≤ y → y ≤ i → (ps.getD y (0, 0)).2 ≤ (ps.getD x (0, 0)).2) →
    (∀ p, prev = some p → (ps.getD 0 (0, 0)).2 ≤ p) →
    ps.getD i (0, 0) ∈ brkTake ps prev := by
  intro ps
  induction ps with
  | nil => intro i prev h hdec hprev; simp at h
  | cons q rest ih =>
    intro i prev hi hdec hprev
    have hstep : brkTake (q :: rest) prev = q :: brkTake rest (some q.2) := by
      cases prev with
      | none => rfl
      | some p =>
        have : ¬ p < q.2 := by
          have := hprev p rfl
          simp only [List.getD_cons_zero] at this
          omega
        rw [brkTake, if_neg this]
    rw [hstep]
    rcases i with _ | k
    · simp
    · have hk : k < rest.length := by simpa using hi
      have hrec := ih k (some q.2) hk
        (fun x y hxy hyk => by
          have := hdec (x + 1) (y + 1) (by omega) (by omega)
          simpa using this)
        (fun p hp => by
          injection hp with hp2
          rw [← hp2]
          have := hdec 0 1 (by omega) (by omega)
          simpa using this)
      simp only [List.getD_cons_succ]
      exact List.mem_cons_of_mem _ hrec

theorem faa_true_eq_brkTake {s : tState} {V : tMap} :
    ∀ (n : Nat) (a : Int) (prev : Option Int),
    faaGo s V true n a prev = brkTake (faaGo s V false n a prev) prev := by
  intro n
  induction n with
  | zero => intro a prev; rfl
  | succ n ih =>
    intro a prev
    cases hc : calc_maximum_value s a V with
    | none =>
      simp only [faaGo, hc]
      exact ih (a + 1) prev
    | some m =>
      by_cases hm : m = -1
      · simp only [faaGo, hc, if_pos hm]
        exact ih (a + 1) prev
      · cases prev with
        | none =>
          simp only [faaGo, hc, if_neg hm]
          rw [brkTake, ih (a + 1) (some m)]
        | some p =>
          by_cases hpm : p < m
          · simp [faaGo, hc, hm, hpm, brkTake]
          · simp [faaGo, hc, hm, hpm, brkTake, ih (a + 1) (some m)]

theorem faa_sound {s : tState} {V : tMap} {brk : Bool} :
    ∀ {n : Nat} {a : Int} {prev : Option Int} {x : Int × Int},
    x ∈ faaGo s V brk n a prev →
    a ≤ x.1 ∧ x.1 < a + n ∧ calc_maximum_value s x.1 V = some x.2 ∧ x.2 ≠ -1 := by
  intro n
  induction n with
  | zero => intro a prev x h; simp [faaGo] at h
  | succ n ih =>
    intro a prev x h
    cases hc : calc_maximum_value s a V with
    | none =>
      simp only [faaGo, hc] at h
      obtain ⟨h1, h2, h3, h4⟩ := ih h
      exact ⟨by omega, by push_cast at h2 ⊢; omega, h3, h4⟩
    | some m =>
      by_cases hm : m = -1
      · simp only [faaGo, hc, if_pos hm] at h
        obtain ⟨h1, h2, h3, h4⟩ := ih h
        exact ⟨by omega, by push_cast at h2 ⊢; omega, h3, h4⟩
      · have hself : x = (a, m) →
            a ≤ x.1 ∧ x.1 < a + (n + 1 : Nat) ∧
              calc_maximum_value s x.1 V = some x.2 ∧ x.2 ≠ -1 := by
          intro hx
          subst hx
          exact ⟨le_refl _, by push_cast; omega, hc, hm⟩
        cases prev with
        | none =>
          simp only [faaGo, hc, if_neg hm] at h
          rcases List.mem_cons.mp h with h2 | h2
          · exact hself h2
          · obtain ⟨h1, h2, h3, h4⟩ := ih h2
            exact ⟨by omega, by push_cast at h2 ⊢; omega, h3, h4⟩
        | some p =>
          simp only [faaGo, hc, if_neg hm] at h
          by_cases hpm : (brk = true) ∧ p < m
          · rw [if_pos hpm] at h
            simp only [List.mem_singleton] at h
            exact hself h
          · rw [if_neg hpm] at h
            rcases List.mem_cons.mp h with h2 | h2
            · exact hself h2
            · obtain ⟨h1, h2, h3, h4⟩ := ih h2
              exact ⟨by omega, by push_cast at h2 ⊢; omega, h3, h4⟩

theorem faa_false_full {s : tState} {V : tMap} {w : Int → Int} :
    ∀ (n : Nat) (a : Int) (prev : Option Int),
    (∀ j : Nat, j < n → calc_maximum_value s (a + j) V = some (w (a + j)) ∧
      w (a + j) ≠ -1) →
    faaGo s V false n a prev = (intsAsc a n).map (fun x => (x, w x)) := by
  intro n
  induction n with
  | zero => intro a prev h; rfl
  | succ n ih =>
    intro a prev h
    obtain ⟨h0, h0m⟩ : calc_maximum_value s a V = some (w a) ∧ w a ≠ -1 := by
      simpa using h 0 (by omega)
    have hshift : ∀ j : Nat, j < n →
        calc_maximum_value s (a + 1 + j) V = some (w (a + 1 + j)) ∧
          w (a + 1 + j) ≠ -1 := by
      intro j hj
      have := h (j + 1) (by omega)
      rwa [show a + (j + 1 : Nat) = a + 1 + j by push_cast; ring] at this
    cases prev with
    | none =>
      simp only [faaGo, h0, if_neg h0m, intsAsc, List.map_cons]
      rw [ih (a + 1) (some (w a)) hshift]
    | some p =>
      simp only [faaGo, h0, if_neg h0m, intsAsc, List.map_cons, false_and,
        Bool.false_eq_true, if_false]
      rw [ih (a + 1) (some (w a)) hshift]

theorem faa_congr {s : tState} {V1 V2 : tMap} {brk : Bool}
    (h : ∀ a f, s.lb < a → a < s.ub → s.lb ≤ f → f < s.ub →
      V1 (s.next a f) = V2 (s.next a f)) :
    ∀ (n : Nat) (a : Int) (prev : Option Int),
    s.lb < a → a + n ≤ s.ub →
    faaGo s V1 brk n a prev = faaGo s V2 brk n a prev := by
  intro n
  induction n with
  | zero => intro a prev h1 h2; rfl
  | succ n ih =>
    intro a prev h1 h2
    have hcc : calc_maximum_value s a V1 = calc_maximum_value s a V2 :=
      calc_congr (fun f hf1 hf2 => h a f h1 (by push_cast at h2; omega) hf1 hf2)
    have hrec : ∀ prev2, faaGo s V1 brk n (a + 1) prev2 = faaGo s V2 brk n (a + 1) prev2 :=
      fun prev2 => ih (a + 1) prev2 (by omega) (by push_cast at h2 ⊢; omega)
    cases hcv : calc_maximum_value s a V2 with
    | none =>
      simp only [faaGo, hcc, hcv]
      exact hrec _
    | some m =>
      by_cases hm : m = -1
      · simp only [faaGo, hcc, hcv, if_pos hm]
        exact hrec _
      · cases prev with
        | none =>
          simp only [faaGo, hcc, hcv, if_neg hm]
          rw [hrec _]
        | some p =>
          simp only [faaGo, hcc, hcv, if_neg hm]
          by_cases hpm : (brk = true) ∧ p < m
          · rw [if_pos hpm, if_pos hpm]
          · rw [if_neg hpm, if_neg hpm, hrec _]

theorem mapped_getD {a : Int} {n k : Nat} {w : Int → Int} (h : k < n) :
    ((intsAsc a n).map (fun x => (x, w x))).getD k (0, 0) = (a + k, w (a + k)) := by
  have hlen : k < ((intsAsc a n).map (fun x => (x, w x))).length := by
    rw [List.length_map, intsAsc_length]; exact h
  rw [List.getD_eq_getElem _ _ hlen, List.getElem_map]
  have hg : (intsAsc a n).getD k 0 = a + k := intsAsc_getD h
  rw [List.getD_eq_getElem _ _ (by rw [intsAsc_length]; exact h)] at hg
  rw [hg]

/-- Left side of the valley: the pointwise max of a monotone `G` and an
antitone `H` is non-increasing left of any global minimizer. -/
theorem max_valley_dec {G H : Int → Int} {p q r : Int}
    (hG : ∀ a b, p ≤ a → a ≤ b → b ≤ q → G a ≤ G b)
    (hH : ∀ a b, p ≤ a → a ≤ b → b ≤ q → H b ≤ H a)
    (hk1 : p ≤ r) (hk2 : r ≤ q)
    (hmin : ∀ k, p ≤ k → k ≤ q → max (G r) (H r) ≤ max (G k) (H k)) :
    ∀ x y, p ≤ x → x ≤ y → y ≤ r → max (G y) (H y) ≤ max (G x) (H x) := by
  intro x y h1 h2 h3
  rcases le_total (H y) (G y) with hc | hc
  · have hGy : G y ≤ G r := hG y r (by omega) h3 hk2
    calc max (G y) (H y) = G y := max_eq_left hc
      _ ≤ max (G r) (H r) := le_trans hGy (le_max_left _ _)
      _ ≤ max (G x) (H x) := hmin x h1 (by omega)
  · have hHy : H y ≤ H x := hH x y h1 h2 (by omega)
    calc max (G y) (H y) = H y := max_eq_right hc
      _ ≤ H x := hHy
      _ ≤ max (G x) (H x) := le_max_right _ _

theorem vstarI_nonneg (e w : Int) : 0 ≤ vstarI e w := Int.ofNat_nonneg _

theorem vstarI_width_one (e : Int) : vstarI e 1 = 0 := by
  simp [vstarI, vstar_width_one]

theorem vstarI_one_egg {w : Int} (hw : 1 ≤ w) : vstarI 1 w = w - 1 := by
  unfold vstarI
  rw [Int.toNat_one, vstar_one_egg]
  omega

theorem vstarI_mono_w {e w x : Int} (he : 1 ≤ e) (hw : 0 ≤ w) (h : w ≤ x) :
    vstarI e w ≤ vstarI e x := by
  unfold vstarI
  have := vstar_mono_w (e := e.toNat) (by omega) (show w.toNat ≤ x.toNat by omega)
  omega

theorem vstarI_anti_e {e d w : Int} (he : 1 ≤ e) (h : e ≤ d) :
    vstarI d w ≤ vstarI e w := by
  unfold vstarI
  have := vstar_anti_e (e := e.toNat) (d := d.toNat) (w := w.toNat)
    (by omega) (by omega)
  omega

/-- Int-level Bellman identity for `e ≥ 2` and width `u - l ≥ 2`: some probe
`a₀ ∈ (l, u)` achieves `vstarI e (u-l)` and no probe beats it. -/
theorem bellmanI {e l u : Int} (he : 2 ≤ e) (hw : l + 2 ≤ u) :
    ∃ a0, l < a0 ∧ a0 < u ∧
      1 + max (vstarI (e - 1) (a0 - l)) (vstarI e (u - a0)) = vstarI e (u - l) ∧
      ∀ a, l < a → a < u →
        vstarI e (u - l) ≤ 1 + max (vstarI (e - 1) (a - l)) (vstarI e (u - a)) := by
  obtain ⟨k, hk1, hk2, hk3, hk4⟩ :=
    bellman_min (e := e.toNat) (w := (u - l).toNat) (by omega) (by omega)
  have hcast : ∀ (a : Int), l < a → a < u →
      (1 : Int) + max (vstarI (e - 1) (a - l)) (vstarI e (u - a)) =
        ((1 + max (vstar (e.toNat - 1) (a - l).toNat)
          (vstar e.toNat ((u - l).toNat - (a - l).toNat)) : Nat) : Int) := by
    intro a ha1 ha2
    unfold vstarI
    have h1 : (e - 1).toNat = e.toNat - 1 := by omega
    have h2 : (u - a).toNat = (u - l).toNat - (a - l).toNat := by omega
    rw [h1, h2]
    push_cast [Nat.cast_max]
    omega
  refine ⟨l + k, by omega, by omega, ?_, ?_⟩
  · rw [hcast (l + k) (by omega) (by omega)]
    unfold vstarI
    have harith : (l + (k : Int) - l).toNat = k := by omega
    rw [harith]
    omega
  · intro a ha1 ha2
    rw [hcast a ha1 ha2]
    have := hk4 (a - l).toNat (by omega) (by omega)
    unfold vstarI
    omega

/-! ### The closed-form tables `Vstage` / `Vrow` -/

theorem Vstage_eq_some {F E t : Int} {s : tState}
    (h : 0 ≤ s.lb ∧ s.lb < s.ub ∧ s.ub ≤ F + 1 ∧ 0 ≤ s.eggs ∧ s.eggs ≤ E ∧
      (s.ub = s.lb + 1 ∨ (1 ≤ s.eggs ∧ s.eggs ≤ t))) :
    Vstage F E t s = some (vstarI s.eggs (s.ub - s.lb)) := by
  unfold Vstage guardMap inDomB
  rw [if_pos (decide_eq_true h)]

theorem Vstage_eq_none {F E t : Int} {s : tState}
    (h : ¬ (0 ≤ s.lb ∧ s.lb < s.ub ∧ s.ub ≤ F + 1 ∧ 0 ≤ s.eggs ∧ s.eggs ≤ E ∧
      (s.ub = s.lb + 1 ∨ (1 ≤ s.eggs ∧ s.eggs ≤ t)))) :
    Vstage F E t s = none := by
  unfold Vstage guardMap inDomB
  rw [if_neg (by simpa using h)]

theorem Vrow_eq_some_prev {F E e l u : Int} {s : tState}
    (h : 0 ≤ s.lb ∧ s.lb < s.ub ∧ s.ub ≤ F + 1 ∧ 0 ≤ s.eggs ∧ s.eggs ≤ E ∧
      (s.ub = s.lb + 1 ∨ (1 ≤ s.eggs ∧ s.eggs ≤ e - 1))) :
    Vrow F E e l u s = some (vstarI s.eggs (s.ub - s.lb)) := by
  unfold Vrow guardMap vrowB inDomB
  rw [if_pos (by rw [Bool.or_eq_true]; exact Or.inl (decide_eq_true h))]

theorem Vrow_eq_some_row {F E e l u : Int} {s : tState}
    (h : s.eggs = e ∧ 0 ≤ s.lb ∧ s.lb < s.ub ∧ s.ub ≤ F + 1 ∧
      (l < s.lb ∨ (s.lb = l ∧ s.ub < u))) :
    Vrow F E e l u s = some (vstarI s.eggs (s.ub - s.lb)) := by
  unfold Vrow guardMap vrowB
  rw [if_pos (by rw [Bool.or_eq_true]; exact Or.inr (decide_eq_true h))]

theorem Vrow_eq_none {F E e l u : Int} {s : tState}
    (h1 : ¬ (0 ≤ s.lb ∧ s.lb < s.ub ∧ s.ub ≤ F + 1 ∧ 0 ≤ s.eggs ∧ s.eggs ≤ E ∧
      (s.ub = s.lb + 1 ∨ (1 ≤ s.eggs ∧ s.eggs ≤ e - 1))))
    (h2 : ¬ (s.eggs = e ∧ 0 ≤ s.lb ∧ s.lb < s.ub ∧ s.ub ≤ F + 1 ∧
      (l < s.lb ∨ (s.lb = l ∧ s.ub < u)))) :
    Vrow F E e l u s = none := by
  unfold Vrow guardMap vrowB inDomB
  rw [if_neg (by simp only [Bool.or_eq_true, decide_eq_true_eq]; tauto)]

/-- During the first scan of level `e` the partially built row table agrees
with the converged level-`e` table on every successor of the state
`(e, l, u)` currently being processed. -/
theorem vrow_succ_agree {F E e l u : Int} (he1 : 1 ≤ e) (heE : e ≤ E)
    (hl : 0 ≤ l) (hu : l + 1 < u) (huF : u ≤ F + 1) :
    ∀ a f, l < a → a < u → l ≤ f → f < u →
      Vrow F E e l u ((⟨e, l, u⟩ : tState).next a f) =
        Vstage F E e ((⟨e, l, u⟩ : tState).next a f) := by
  intro a f ha1 ha2 hf1 hf2
  by_cases hb : f < a
  · rw [next_mk_break hb ha2]
    by_cases hcase : a = l + 1 ∨ 2 ≤ e
    · have h1 := Vrow_eq_some_prev (F := F) (E := E) (e := e) (l := l) (u := u)
        (s := ⟨e - 1, l, a⟩) (by simp only [tState_mk_eggs, tState_mk_lb, tState_mk_ub, true_and, and_true, true_or, or_true]; omega)
      have h2 := Vstage_eq_some (F := F) (E := E) (t := e)
        (s := ⟨e - 1, l, a⟩) (by simp only [tState_mk_eggs, tState_mk_lb, tState_mk_ub, true_and, and_true, true_or, or_true]; omega)
      rw [h1, h2]
    · push_neg at hcase
      have h1 := Vrow_eq_none (F := F) (E := E) (e := e) (l := l) (u := u)
        (s := ⟨e - 1, l, a⟩) (by simp only [tState_mk_eggs, tState_mk_lb, tState_mk_ub, true_and, and_true, true_or, or_true]; omega) (by simp only [tState_mk_eggs, tState_mk_lb, tState_mk_ub, true_and, and_true, true_or, or_true]; omega)
      have h2 := Vstage_eq_none (F := F) (E := E) (t := e)
        (s := ⟨e - 1, l, a⟩) (by simp only [tState_mk_eggs, tState_mk_lb, tState_mk_ub, true_and, and_true, true_or, or_true]; omega)
      rw [h1, h2]
  · rw [next_mk_nobreak hb ha1]
    have h1 := Vrow_eq_some_row (F := F) (E := E) (e := e) (l := l) (u := u)
      (s := ⟨e, a, u⟩) (by simp only [tState_mk_eggs, tState_mk_lb, tState_mk_ub, true_and, and_true, true_or, or_true]; omega)
    have h2 := Vstage_eq_some (F := F) (E := E) (t := e)
      (s := ⟨e, a, u⟩) (by simp only [tState_mk_eggs, tState_mk_lb, tState_mk_ub, true_and, and_true, true_or, or_true]; omega)
    rw [h1, h2]

/-- Worst-case value of probe `a` at state `(e, l, u)` against the converged
stage-`e` table, for `e ≥ 2`: always admissible, with the two-branch value. -/
theorem calc_stage_ge2 {F E e l u a : Int} (he : 2 ≤ e) (heE : e ≤ E)
    (hl : 0 ≤ l) (hu : l + 1 < u) (huF : u ≤ F + 1) (ha1 : l < a) (ha2 : a < u) :
    calc_maximum_value ⟨e, l, u⟩ a (Vstage F E e) =
      some (1 + max (vstarI (e - 1) (a - l)) (vstarI e (u - a))) := by
  have hx : ∀ f, l ≤ f → f < a →
      Vstage F E e ((⟨e, l, u⟩ : tState).next a f) =
        some (vstarI (e - 1) (a - l)) := by
    intro f hfa hfb
    rw [next_mk_break hfb ha2]
    have := Vstage_eq_some (F := F) (E := E) (t := e) (s := ⟨e - 1, l, a⟩)
      (by simp only [tState_mk_eggs, tState_mk_lb, tState_mk_ub, true_and, and_true, true_or, or_true]; omega)
    simpa using this
  have hy : ∀ f, a ≤ f → f < u →
      Vstage F E e ((⟨e, l, u⟩ : tState).next a f) =
        some (vstarI e (u - a)) := by
    intro f hfa hfb
    rw [next_mk_nobreak (by omega) ha1]
    have := Vstage_eq_some (F := F) (E := E) (t := e) (s := ⟨e, a, u⟩)
      (by simp only [tState_mk_eggs, tState_mk_lb, tState_mk_ub, true_and, and_true, true_or, or_true]; omega)
    simpa using this
  rw [calc_split ha1 ha2 hx hy]
  have h1 := vstarI_nonneg (e - 1) (a - l)
  have hm1 : max (-1 : Int) (1 + vstarI (e - 1) (a - l)) =
      1 + vstarI (e - 1) (a - l) := max_eq_right (by omega)
  rw [hm1, max_add_add_left]

/-- With one egg, the probe `l + 1` is admissible at `(1, l, u)` and its
worst-case value is the full linear-search cost `u - l - 1`. -/
theorem calc_stage_one {F E l u : Int} (hE : 1 ≤ E)
    (hl : 0 ≤ l) (hu : l + 1 < u) (huF : u ≤ F + 1) :
    calc_maximum_value ⟨1, l, u⟩ (l + 1) (Vstage F E 1) = some (u - l - 1) := by
  have hx : ∀ f, l ≤ f → f < l + 1 →
      Vstage F E 1 ((⟨1, l, u⟩ : tState).next (l + 1) f) = some (vstarI 0 1) := by
    intro f hfa hfb
    rw [next_mk_break hfb (by omega)]
    have := Vstage_eq_some (F := F) (E := E) (t := 1) (s := ⟨0, l, l + 1⟩)
      (by simp only [tState_mk_eggs, tState_mk_lb, tState_mk_ub, true_and, and_true, true_or, or_true]; omega)
    have harith : ((1 : Int) - 1) = 0 := by ring
    rw [harith]
    simpa using this
  have hy : ∀ f, l + 1 ≤ f → f < u →
      Vstage F E 1 ((⟨1, l, u⟩ : tState).next (l + 1) f) =
        some (vstarI 1 (u - (l + 1))) := by
    intro f hfa hfb
    rw [next_mk_nobreak (by omega) (by omega)]
    have := Vstage_eq_some (F := F) (E := E) (t := 1) (s := ⟨1, l + 1, u⟩)
      (by simp only [tState_mk_eggs, tState_mk_lb, tState_mk_ub, true_and, and_true, true_or, or_true]; omega)
    simpa using this
  rw [calc_split (by simp only [tState_mk_eggs, tState_mk_lb, tState_mk_ub, true_and, and_true, true_or, or_true]; omega) (by simp only [tState_mk_eggs, tState_mk_lb, tState_mk_ub, true_and, and_true, true_or, or_true]; omega) hx hy]
  rw [vstarI_width_one, vstarI_one_egg (by omega)]
  have h1 : max (-1 : Int) (1 + 0) = 1 := by
    rw [max_eq_right (by omega)]
    norm_num
  rw [h1]
  have h2 : (1 : Int) + (u - (l + 1) - 1) = u - l - 1 := by ring
  rw [h2]
  rw [max_eq_right (by omega : (1 : Int) ≤ u - l - 1)]

/-- With one egg, any probe other than `l + 1` is inadmissible at
`(1, l, u)` against the stage-1 table: the breaking successor below the
probe is a failed state, absent from `V`. -/
theorem calc_stage_one_none {F E l u a : Int}
    (hl : 0 ≤ l) (hu : l + 1 < u) (huF : u ≤ F + 1) (ha1 : l + 1 < a) (ha2 : a < u) :
    calc_maximum_value ⟨1, l, u⟩ a (Vstage F E 1) = none := by
  cases hc : calc_maximum_value ⟨1, l, u⟩ a (Vstage F E 1) with
  | none => rfl
  | some m =>
    exfalso
    have hpres := calc_some_imp_present hc l (by simp) (by simp only [tState_mk_eggs, tState_mk_lb, tState_mk_ub, true_and, and_true, true_or, or_true]; omega)
    rw [next_mk_break (by omega) ha2] at hpres
    rw [Vstage_eq_none (by simp only [tState_mk_eggs, tState_mk_lb, tState_mk_ub, true_and, and_true, true_or, or_true]; omega)] at hpres
    simp at hpres

theorem faa_allNone {s : tState} {V : tMap} {brk : Bool} :
    ∀ (n : Nat) (a : Int) (prev : Option Int),
    (∀ j : Nat, j < n → calc_maximum_value s (a + j) V = none) →
    faaGo s V brk n a prev = [] := by
  intro n
  induction n with
  | zero => intro a prev h; rfl
  | succ n ih =>
    intro a prev h
    have h0 : calc_maximum_value s a V = none := by simpa using h 0 (by omega)
    simp only [faaGo, h0]
    exact ih (a + 1) prev (fun j hj => by
      have := h (j + 1) (by omega)
      rwa [show a + (j + 1 : Nat) = a + 1 + j by push_cast; ring] at this)

/-- At a non-terminal state `(e, l, u)` with `e ≥ 2` and the converged
stage-`e` table, the `break_on_increase` admissible-action scan is nonempty,
its minimal value is `vstarI e (u - l)`, and every scanned value is at
least that minimum. -/
theorem faa_stage_ge2 {F E e l u : Int} (he : 2 ≤ e) (heE : e ≤ E)
    (hl : 0 ≤ l) (hu : l + 2 ≤ u) (huF : u ≤ F + 1) :
    find_admissible_actions ⟨e, l, u⟩ (Vstage F E e) true ≠ [] ∧
    valueOfPairs (find_admissible_actions ⟨e, l, u⟩ (Vstage F E e) true) =
      vstarI e (u - l) := by
  set w : Int → Int :=
    fun a => 1 + max (vstarI (e - 1) (a - l)) (vstarI e (u - a)) with hw
  set n : Nat := (u - l - 1).toNat with hn
  have hall : ∀ j : Nat, j < n →
      calc_maximum_value ⟨e, l, u⟩ (l + 1 + j) (Vstage F E e) =
        some (w (l + 1 + j)) ∧ w (l + 1 + j) ≠ -1 := by
    intro j hj
    constructor
    · exact calc_stage_ge2 he heE hl (by omega) huF (by omega) (by omega)
    · have := vstarI_nonneg (e - 1) (l + 1 + j - l)
      have := le_max_left (vstarI (e - 1) (l + 1 + j - l)) (vstarI e (u - (l + 1 + j)))
      simp only [hw]
      omega
  have hfaa : find_admissible_actions ⟨e, l, u⟩ (Vstage F E e) true =
      faaGo ⟨e, l, u⟩ (Vstage F E e) true n (l + 1) none := by
    unfold find_admissible_actions
    simp only [tState_mk_lb, tState_mk_ub, hn]
  have hfull : faaGo ⟨e, l, u⟩ (Vstage F E e) false n (l + 1) none =
      (intsAsc (l + 1) n).map (fun x => (x, w x)) :=
    faa_false_full n (l + 1) none hall
  have htrue : faaGo ⟨e, l, u⟩ (Vstage F E e) true n (l + 1) none =
      brkTake ((intsAsc (l + 1) n).map (fun x => (x, w x))) none := by
    rw [faa_true_eq_brkTake, hfull]
  obtain ⟨a0, ha0l, ha0u, ha0min, ha0all⟩ := bellmanI (l := l) (u := u) he hu
  have hwa0 : w a0 = vstarI e (u - l) := ha0min
  have hwlow : ∀ a, l < a → a < u → vstarI e (u - l) ≤ w a := ha0all
  -- the valley structure of w
  have hGH : ∀ a : Int, w a =
      max (1 + vstarI (e - 1) (a - l)) (1 + vstarI e (u - a)) := by
    intro a
    simp only [hw]
    rw [max_add_add_left]
  have hG : ∀ a b : Int, l + 1 ≤ a → a ≤ b → b ≤ u - 1 →
      1 + vstarI (e - 1) (a - l) ≤ 1 + vstarI (e - 1) (b - l) := by
    intro a b h1 h2 h3
    have := vstarI_mono_w (e := e - 1) (by omega) (show (0:Int) ≤ a - l by omega)
      (show a - l ≤ b - l by omega)
    omega
  have hH : ∀ a b : Int, l + 1 ≤ a → a ≤ b → b ≤ u - 1 →
      1 + vstarI e (u - b) ≤ 1 + vstarI e (u - a) := by
    intro a b h1 h2 h3
    have := vstarI_mono_w (e := e) (by omega) (show (0:Int) ≤ u - b by omega)
      (show u - b ≤ u - a by omega)
    omega
  have hvalley := max_valley_dec (G := fun a => 1 + vstarI (e - 1) (a - l))
    (H := fun a => 1 + vstarI e (u - a)) (p := l + 1) (q := u - 1) (r := a0)
    hG hH (by omega) (by omega)
    (fun k hk1 hk2 => by
      rw [← hGH, ← hGH, hwa0]
      exact hwlow k (by omega) (by omega))
  set i0 : Nat := (a0 - (l + 1)).toNat with hi0
  have hi0n : i0 < n := by omega
  have hlen : ((intsAsc (l + 1) n).map (fun x => (x, w x))).length = n := by
    rw [List.length_map, intsAsc_length]
  have hpivot : ((intsAsc (l + 1) n).map (fun x => (x, w x))).getD i0 (0, 0) ∈
      brkTake ((intsAsc (l + 1) n).map (fun x => (x, w x))) none := by
    refine brkTake_pivot_mem _ i0 none (by rw [hlen]; exact hi0n) ?_ (by simp)
    intro x y hxy hyi
    have hxn : x < n := by omega
    have hyn : y < n := by omega
    rw [mapped_getD hxn, mapped_getD hyn]
    simp only
    rw [hGH, hGH]
    exact hvalley (l + 1 + x) (l + 1 + y) (by omega) (by omega) (by omega)
  rw [mapped_getD hi0n] at hpivot
  have ha0eq : l + 1 + (i0 : Int) = a0 := by omega
  rw [ha0eq] at hpivot
  have hTmem : (a0, vstarI e (u - l)) ∈
      find_admissible_actions ⟨e, l, u⟩ (Vstage F E e) true := by
    rw [hfaa, htrue, ← hwa0]
    exact hpivot
  have hne : find_admissible_actions ⟨e, l, u⟩ (Vstage F E e) true ≠ [] :=
    List.ne_nil_of_mem hTmem
  refine ⟨hne, ?_⟩
  rw [valueOfPairs_eq_listMin _ hne]
  have hub : listMin ((find_admissible_actions ⟨e, l, u⟩ (Vstage F E e) true).map
      Prod.snd) ≤ vstarI e (u - l) := by
    refine listMin_le_mem _ _ ?_
    exact List.mem_map.mpr ⟨(a0, vstarI e (u - l)), hTmem, rfl⟩
  have hlb : vstarI e (u - l) ≤
      listMin ((find_admissible_actions ⟨e, l, u⟩ (Vstage F E e) true).map
        Prod.snd) := by
    have hmm := listMin_mem ((find_admissible_actions ⟨e, l, u⟩
      (Vstage F E e) true).map Prod.snd) (by simpa using hne)
    rw [List.mem_map] at hmm
    obtain ⟨q, hq1, hq2⟩ := hmm
    have hq3 : q ∈ (intsAsc (l + 1) n).map (fun x => (x, w x)) := by
      rw [hfaa, htrue] at hq1
      exact brkTake_subset _ _ _ hq1
    rw [List.mem_map] at hq3
    obtain ⟨x, hx1, hx2⟩ := hq3
    rw [mem_intsAsc] at hx1
    rw [← hq2, ← hx2]
    simp only
    exact hwlow x (by omega) (by omega)
  omega

/-- At a non-terminal state `(1, l, u)` with the converged stage-1 table,
the scan finds exactly the single admissible action `l + 1`, of value
`u - l - 1`. -/
theorem faa_stage_one {F E l u : Int} (hE : 1 ≤ E)
    (hl : 0 ≤ l) (hu : l + 2 ≤ u) (huF : u ≤ F + 1) :
    find_admissible_actions ⟨1, l, u⟩ (Vstage F E 1) true = [(l + 1, u - l - 1)] := by
  have hfaa : find_admissible_actions ⟨1, l, u⟩ (Vstage F E 1) true =
      faaGo ⟨1, l, u⟩ (Vstage F E 1) true (u - l - 1).toNat (l + 1) none := by
    unfold find_admissible_actions
    simp only [tState_mk_lb, tState_mk_ub]
  obtain ⟨m, hm⟩ : ∃ m, (u - l - 1).toNat = m + 1 := ⟨(u - l - 1).toNat - 1, by omega⟩
  rw [hfaa, hm]
  have hc0 : calc_maximum_value ⟨1, l, u⟩ (l + 1) (Vstage F E 1) =
      some (u - l - 1) := calc_stage_one hE hl (by omega) huF
  simp only [faaGo, hc0, if_neg (show ¬ (u - l - 1 = -1) by omega)]
  rw [faa_allNone m (l + 1 + 1) (some (u - l - 1)) (fun j hj =>
    calc_stage_one_none hl (by omega) huF (by omega) (by omega))]

/-! ### Algebra of the row/stage guards -/

theorem inDomB_iff (F E st : Int) (s : tState) :
    inDomB F E st s = true ↔
      (0 ≤ s.lb ∧ s.lb < s.ub ∧ s.ub ≤ F + 1 ∧ 0 ≤ s.eggs ∧ s.eggs ≤ E ∧
        (s.ub = s.lb + 1 ∨ (1 ≤ s.eggs ∧ s.eggs ≤ st))) := by
  unfold inDomB
  simp

theorem vrowB_iff (F E e l u : Int) (s : tState) :
    vrowB F E e l u s = true ↔
      ((0 ≤ s.lb ∧ s.lb < s.ub ∧ s.ub ≤ F + 1 ∧ 0 ≤ s.eggs ∧ s.eggs ≤ E ∧
        (s.ub = s.lb + 1 ∨ (1 ≤ s.eggs ∧ s.eggs ≤ e - 1))) ∨
       (s.eggs = e ∧ 0 ≤ s.lb ∧ s.lb < s.ub ∧ s.ub ≤ F + 1 ∧
        (l < s.lb ∨ (s.lb = l ∧ s.ub < u)))) := by
  unfold vrowB
  rw [Bool.or_eq_true, inDomB_iff]
  simp

theorem bool_eq_of_iff {a b : Bool} (h : a = true ↔ b = true) : a = b := by
  rcases Bool.eq_false_or_eq_true a with h1 | h1 <;>
    rcases Bool.eq_false_or_eq_true b with h2 | h2 <;> simp_all

/-- Processing `(e, l, u)` extends the row guard from `u` to `u + 1` at just
that key. -/
theorem Vrow_u_succ {F E e l u : Int} (he1 : 1 ≤ e) (heE : e ≤ E) (hl : 0 ≤ l)
    (hu : l + 1 < u) (huF : u ≤ F + 1) :
    mapInsert (Vrow F E e l u) ⟨e, l, u⟩ (vstarI e (u - l)) =
      Vrow F E e l (u + 1) := by
  funext s
  unfold mapInsert
  by_cases hs : s = ⟨e, l, u⟩
  · subst hs
    rw [if_pos rfl]
    have := Vrow_eq_some_row (F := F) (E := E) (e := e) (l := l) (u := u + 1)
      (s := ⟨e, l, u⟩)
      (by simp only [tState_mk_eggs, tState_mk_lb, tState_mk_ub, true_and, and_true, true_or, or_true]; omega)
    rw [this]
  · rw [if_neg hs]
    unfold Vrow guardMap
    have hguard : vrowB F E e l (u + 1) s = vrowB F E e l u s := by
      refine bool_eq_of_iff ?_
      rw [vrowB_iff, vrowB_iff]
      cases s with
      | mk se sl su =>
        have hne : ¬ (se = e ∧ sl = l ∧ su = u) := by
          intro hc
          exact hs (by rw [hc.1, hc.2.1, hc.2.2])
        simp only [tState_mk_eggs, tState_mk_lb, tState_mk_ub]
        constructor
        · rintro (h | ⟨h1, h2, h3, h4, h5 | ⟨h5, h6⟩⟩)
          · exact Or.inl h
          · exact Or.inr ⟨h1, h2, h3, h4, Or.inl h5⟩
          · refine Or.inr ⟨h1, h2, h3, h4, Or.inr ⟨h5, ?_⟩⟩
            rcases (show su < u ∨ su = u by omega) with h7 | h7
            · exact h7
            · exact absurd ⟨h1, h5, h7⟩ hne
        · rintro (h | ⟨h1, h2, h3, h4, h5 | ⟨h5, h6⟩⟩)
          · exact Or.inl h
          · exact Or.inr ⟨h1, h2, h3, h4, Or.inl h5⟩
          · exact Or.inr ⟨h1, h2, h3, h4, Or.inr ⟨h5, by omega⟩⟩
    rw [hguard]

/-- At the start of row `l` the row guard coincides with the end of row
`l + 1`. -/
theorem Vrow_row_start {F E e l : Int} :
    Vrow F E e l (l + 1) = Vrow F E e (l + 1) (F + 2) := by
  funext s
  unfold Vrow guardMap
  have hguard : vrowB F E e l (l + 1) s = vrowB F E e (l + 1) (F + 2) s := by
    refine bool_eq_of_iff ?_
    rw [vrowB_iff, vrowB_iff]
    constructor
    · rintro (h | ⟨h1, h2, h3, h4, h5 | ⟨h5, h6⟩⟩)
      · exact Or.inl h
      · exact Or.inr ⟨h1, h2, h3, h4, by omega⟩
      · exact absurd h6 (by omega)
    · rintro (h | ⟨h1, h2, h3, h4, h5 | ⟨h5, h6⟩⟩)
      · exact Or.inl h
      · exact Or.inr ⟨h1, h2, h3, h4, Or.inl (by omega)⟩
      · exact Or.inr ⟨h1, h2, h3, h4, Or.inl (by omega)⟩
  rw [hguard]

/-- At the very start of the scan of level `e` the row table is the
converged table of level `e - 1`. -/
theorem Vrow_scan_start (F E e : Int) :
    Vrow F E e F (F + 1) = Vstage F E (e - 1) := by
  funext s
  unfold Vrow Vstage guardMap
  have hguard : vrowB F E e F (F + 1) s = inDomB F E (e - 1) s := by
    refine bool_eq_of_iff ?_
    rw [vrowB_iff, inDomB_iff]
    constructor
    · rintro (h | ⟨h1, h2, h3, h4, h5 | ⟨h5, h6⟩⟩)
      · exact h
      · exact absurd h4 (by omega)
      · exact absurd h6 (by omega)
    · exact Or.inl
  rw [hguard]

/-- After the last row (`l = 0`) of the scan of level `e` the row table is
the converged table of level `e`. -/
theorem Vrow_scan_end {F E e : Int} (he : 1 ≤ e) (heE : e ≤ E) :
    Vrow F E e (-1) 0 = Vstage F E e := by
  funext s
  unfold Vrow Vstage guardMap
  have hguard : vrowB F E e (-1) 0 s = inDomB F E e s := by
    refine bool_eq_of_iff ?_
    rw [vrowB_iff, inDomB_iff]
    constructor
    · rintro (⟨h1, h2, h3, h4, h5, h6 | ⟨h6, h7⟩⟩ | ⟨h1, h2, h3, h4, h5⟩)
      · exact ⟨h1, h2, h3, h4, h5, Or.inl h6⟩
      · exact ⟨h1, h2, h3, h4, h5, Or.inr ⟨h6, by omega⟩⟩
      · exact ⟨h2, h3, h4, by omega, by omega, Or.inr ⟨by omega, by omega⟩⟩
    · rintro ⟨h1, h2, h3, h4, h5, h6 | ⟨h6, h7⟩⟩
      · exact Or.inl ⟨h1, h2, h3, h4, h5, Or.inl h6⟩
      · rcases (show s.eggs ≤ e - 1 ∨ s.eggs = e by omega) with h8 | h8
        · exact Or.inl ⟨h1, h2, h3, h4, h5, Or.inr ⟨h6, h8⟩⟩
        · exact Or.inr ⟨h8, h1, h2, h3, Or.inl (by omega)⟩
  rw [hguard]

/-! ### `initialize_terminal_entries` builds `Vstage F E 0` -/

theorem init_inner (F E e : Int) : ∀ (n : Nat) (f0 : Int) (m : tMap),
    ((intsAsc f0 n).foldl (fun m f => mapInsert m ⟨e, f, f + 1⟩ 0) m) =
      fun s => if s.eggs = e ∧ f0 ≤ s.lb ∧ s.lb < f0 + n ∧ s.ub = s.lb + 1
        then some 0 else m s := by
  intro n
  induction n with
  | zero =>
    intro f0 m
    funext s
    simp only [intsAsc, List.foldl_nil]
    rw [if_neg (by omega)]
  | succ n ih =>
    intro f0 m
    funext s
    simp only [intsAsc, List.foldl_cons]
    rw [ih (f0 + 1) (mapInsert m ⟨e, f0, f0 + 1⟩ 0)]
    simp only [mapInsert]
    cases s with
    | mk se sl su =>
      simp only [tState_mk_eggs, tState_mk_lb, tState_mk_ub, tState.mk.injEq]
      by_cases h1 : se = e ∧ f0 + 1 ≤ sl ∧ sl < f0 + 1 + n ∧ su = sl + 1
      · rw [if_pos h1, if_pos (by push_cast at h1 ⊢; omega)]
      · rw [if_neg h1]
        by_cases h2 : se = e ∧ sl = f0 ∧ su = f0 + 1
        · rw [if_pos h2, if_pos (by push_cast at h1 ⊢; omega)]
        · rw [if_neg h2]
          by_cases h3 : se = e ∧ f0 ≤ sl ∧ sl < f0 + (n + 1 : Nat) ∧ su = sl + 1
          · exfalso
            push_cast at h1 h3
            omega
          · rw [if_neg h3]

theorem init_outer (F E : Int) : ∀ (n : Nat) (e0 : Int) (m : tMap),
    ((intsAsc e0 n).foldl
      (fun m e =>
        (intsAsc 0 (F + 1).toNat).foldl (fun m f => mapInsert m ⟨e, f, f + 1⟩ 0) m)
      m) =
      fun s => if e0 ≤ s.eggs ∧ s.eggs < e0 + n ∧ 0 ≤ s.lb ∧ s.lb < F + 1 ∧
        s.ub = s.lb + 1 then some 0 else m s := by
  intro n
  induction n with
  | zero =>
    intro e0 m
    funext s
    simp only [intsAsc, List.foldl_nil]
    rw [if_neg (by omega)]
  | succ n ih =>
    intro e0 m
    funext s
    simp only [intsAsc, List.foldl_cons]
    rw [ih (e0 + 1) _, init_inner F E e0 (F + 1).toNat 0 m]
    cases s with
    | mk se sl su =>
      simp only [tState_mk_eggs, tState_mk_lb, tState_mk_ub]
      by_cases h1 : e0 + 1 ≤ se ∧ se < e0 + 1 + n ∧ 0 ≤ sl ∧ sl < F + 1 ∧ su = sl + 1
      · rw [if_pos h1, if_pos (by push_cast at h1 ⊢; omega)]
      · rw [if_neg h1]
        by_cases h2 : se = e0 ∧ 0 ≤ sl ∧ sl < 0 + ((F + 1).toNat : Int) ∧ su = sl + 1
        · rw [if_pos h2, if_pos (by push_cast at h1 h2 ⊢; omega)]
        · rw [if_neg h2]
          by_cases h3 : e0 ≤ se ∧ se < e0 + (n + 1 : Nat) ∧ 0 ≤ sl ∧ sl < F + 1 ∧
              su = sl + 1
          · exfalso
            push_cast at h1 h2 h3
            omega
          · rw [if_neg h3]

theorem init_eq_Vstage0 (F E : Int) :
    initialize_terminal_entries F E = Vstage F E 0 := by
  unfold initialize_terminal_entries
  rw [init_outer F E (E + 1).toNat 0 emptyMap]
  funext s
  cases s with
  | mk se sl su =>
    unfold Vstage guardMap
    simp only [tState_mk_eggs, tState_mk_lb, tState_mk_ub]
    by_cases h1 : 0 ≤ se ∧ se < 0 + ((E + 1).toNat : Int) ∧ 0 ≤ sl ∧ sl < F + 1 ∧
        su = sl + 1
    · rw [if_pos h1, if_pos (show inDomB F E 0 ⟨se, sl, su⟩ = true from
        (inDomB_iff F E 0 ⟨se, sl, su⟩).mpr (by
          simp only [tState_mk_eggs, tState_mk_lb, tState_mk_ub]
          push_cast at h1
          omega))]
      have h2 : su - sl = 1 := by push_cast at h1; omega
      rw [h2, vstarI_width_one]
    · rw [if_neg h1, if_neg (show ¬ inDomB F E 0 ⟨se, sl, su⟩ = true from fun hc => by
        have hdm := (inDomB_iff F E 0 ⟨se, sl, su⟩).mp hc
        simp only [tState_mk_eggs, tState_mk_lb, tState_mk_ub] at hdm
        push_cast at h1
        omega)]
      rfl

/-! ### One step of `single_scan` -/

theorem valueOfPairs_singleton (a v : Int) : valueOfPairs [(a, v)] = v := rfl

theorem chosenOfPairs_singleton (a v : Int) : chosenOfPairs [(a, v)] = a := by
  unfold chosenOfPairs
  simp [argmin, argminGo]

theorem Astage_eq_some {F E t : Int} {s : tState}
    (h : 1 ≤ s.eggs ∧ s.eggs ≤ t ∧ 0 ≤ s.lb ∧ s.lb + 1 < s.ub ∧
      s.ub ≤ F + 1) :
    Astage F E t s = some (chosenOf s (Vstage F E s.eggs)) := by
  unfold Astage astageB
  rw [if_pos (decide_eq_true h)]

/-- Combined characterization of the scan at a non-terminal `(e, l, u)`
against the converged stage-`e` table: the scan is nonempty and its selected
value is `vstarI e (u - l)`. -/
theorem faa_stage_all {F E e l u : Int} (he1 : 1 ≤ e) (heE : e ≤ E)
    (hl : 0 ≤ l) (hu : l + 2 ≤ u) (huF : u ≤ F + 1) :
    find_admissible_actions ⟨e, l, u⟩ (Vstage F E e) true ≠ [] ∧
    valueOfPairs (find_admissible_actions ⟨e, l, u⟩ (Vstage F E e) true) =
      vstarI e (u - l) := by
  rcases (show e = 1 ∨ 2 ≤ e by omega) with he | he
  · subst he
    rw [faa_stage_one (by omega) hl hu huF]
    refine ⟨by simp, ?_⟩
    rw [valueOfPairs_singleton, vstarI_one_egg (by omega)]
  · exact faa_stage_ge2 he heE hl hu huF

theorem processState_skip_terminal (tb : Bool) {e l u : Int} (st : BuildSt)
    (hterm : u = l + 1) (hl : 0 ≤ l) (he : 0 ≤ e)
    (hsome : (st.V ⟨e, l, u⟩).isSome = true) :
    processState tb e l u st = st := by
  unfold processState
  have ht : (⟨e, l, u⟩ : tState).isterminal = true := by
    simp only [tState.isterminal, tState_mk_eggs, tState_mk_lb, tState_mk_ub,
      decide_eq_true_eq]
    omega
  simp only [ht, hsome, Bool.and_self, if_true]

theorem processState_insert {F E e l u : Int} (st : BuildSt)
    (he1 : 1 ≤ e) (heE : e ≤ E) (hl : 0 ≤ l) (hu : l + 2 ≤ u) (huF : u ≤ F + 1)
    (hV : st.V = Vrow F E e l u) :
    processState false e l u st =
      { st with V := Vrow F E e l (u + 1),
                A := mapInsert st.A ⟨e, l, u⟩ (chosenOf ⟨e, l, u⟩ (Vstage F E e)),
                inserts := st.inserts + 1 } := by
  obtain ⟨V0, A0, ins0, mods0⟩ := st
  simp only at hV
  subst hV
  have hnone : Vrow F E e l u ⟨e, l, u⟩ = none :=
    Vrow_eq_none
      (by simp only [tState_mk_eggs, tState_mk_lb, tState_mk_ub, true_and, and_true, true_or, or_true]; omega)
      (by simp only [tState_mk_eggs, tState_mk_lb, tState_mk_ub, true_and, and_true, true_or, or_true]; omega)
  have hfeq : find_admissible_actions ⟨e, l, u⟩ (Vrow F E e l u) true =
      find_admissible_actions ⟨e, l, u⟩ (Vstage F E e) true := by
    unfold find_admissible_actions
    exact faa_congr
      (fun a f ha1 ha2 hf1 hf2 =>
        vrow_succ_agree he1 heE hl (by omega) huF a f ha1 ha2 hf1 hf2)
      _ _ none (by simp only [tState_mk_lb]; omega)
      (by simp only [tState_mk_lb, tState_mk_ub]; omega)
  obtain ⟨hne', hval'⟩ := faa_stage_all he1 heE hl hu huF
  have hne : find_admissible_actions ⟨e, l, u⟩ (Vrow F E e l u) true ≠ [] := by
    rw [hfeq]; exact hne'
  have hval : valueOf ⟨e, l, u⟩ (Vrow F E e l u) = vstarI e (u - l) := by
    unfold valueOf
    rw [hfeq]; exact hval'
  have hact : chosenOf ⟨e, l, u⟩ (Vrow F E e l u) =
      chosenOf ⟨e, l, u⟩ (Vstage F E e) := by
    unfold chosenOf
    rw [hfeq]
  unfold processState
  simp only [hnone, Option.isSome_none, Bool.false_and, Bool.false_eq_true,
    if_false, if_neg hne]
  simp only [Bool.false_eq_true, if_false, hval, hact]
  rw [Vrow_u_succ he1 heE hl (by omega) huF]

theorem processState_noop {F E e l u : Int} (st : BuildSt)
    (he1 : 1 ≤ e) (heE : e ≤ E) (hl : 0 ≤ l) (hu : l + 1 ≤ u) (huF : u ≤ F + 1)
    (hV : st.V = Vstage F E e) (hA : st.A = Astage F E e) :
    processState false e l u st = st := by
  obtain ⟨V0, A0, ins0, mods0⟩ := st
  simp only at hV hA
  subst hV
  subst hA
  rcases eq_or_lt_of_le hu with hterm | hwide
  · refine processState_skip_terminal false _ hterm.symm hl (by omega) ?_
    have hsome := Vstage_eq_some (F := F) (E := E) (t := e) (s := ⟨e, l, u⟩)
      (by simp only [tState_mk_eggs, tState_mk_lb, tState_mk_ub, true_and, and_true, true_or, or_true]; omega)
    simp only at hsome ⊢
    rw [hsome]
    rfl
  · have hsome : Vstage F E e ⟨e, l, u⟩ = some (vstarI e (u - l)) := by
      have := Vstage_eq_some (F := F) (E := E) (t := e) (s := ⟨e, l, u⟩)
        (by simp only [tState_mk_eggs, tState_mk_lb, tState_mk_ub, true_and, and_true, true_or, or_true]; omega)
      simpa using this
    obtain ⟨hne', hval'⟩ := faa_stage_all he1 heE hl (by omega) huF
    have htf : (⟨e, l, u⟩ : tState).isterminal = false :=
      isterminal_false_of_wide _ (by simp only [tState_mk_lb, tState_mk_ub]; omega)
    have hAkey : Astage F E e ⟨e, l, u⟩ =
        some (chosenOf ⟨e, l, u⟩ (Vstage F E e)) := by
      have := Astage_eq_some (F := F) (E := E) (t := e) (s := ⟨e, l, u⟩)
        (by simp only [tState_mk_eggs, tState_mk_lb, tState_mk_ub, true_and, and_true, true_or, or_true]; omega)
      simpa using this
    unfold processState
    simp only [hsome, htf, Bool.and_false, Bool.false_eq_true, if_false,
      if_neg hne']
    have hvOf : valueOf ⟨e, l, u⟩ (Vstage F E e) = vstarI e (u - l) := hval'
    simp only [hvOf, hAkey]
    rw [if_neg (by simp)]

/-! ### Algebra of the partial action table `Arow` -/

theorem arowB_iff (F E e l u : Int) (s : tState) :
    arowB F E e l u s = true ↔
      (s.eggs = e ∧ 0 ≤ s.lb ∧ s.lb + 1 < s.ub ∧ s.ub ≤ F + 1 ∧
        (l < s.lb ∨ (s.lb = l ∧ s.ub < u))) := by
  unfold arowB
  simp

theorem Arow_u_succ {F E e l u : Int} (A0 : tMap) (hl : 0 ≤ l) (hu : l + 2 ≤ u)
    (huF : u ≤ F + 1) :
    mapInsert (Arow F E e l u A0) ⟨e, l, u⟩ (chosenOf ⟨e, l, u⟩ (Vstage F E e)) =
      Arow F E e l (u + 1) A0 := by
  funext s
  unfold mapInsert
  by_cases hs : s = ⟨e, l, u⟩
  · subst hs
    rw [if_pos rfl]
    unfold Arow
    rw [if_pos ((arowB_iff F E e l (u + 1) ⟨e, l, u⟩).mpr
      (by simp only [tState_mk_eggs, tState_mk_lb, tState_mk_ub, true_and, and_true, true_or, or_true]; omega))]
  · rw [if_neg hs]
    unfold Arow
    have hguard : arowB F E e l (u + 1) s = arowB F E e l u s := by
      refine bool_eq_of_iff ?_
      rw [arowB_iff, arowB_iff]
      cases s with
      | mk se sl su =>
        have hne : ¬ (se = e ∧ sl = l ∧ su = u) := by
          intro hc
          exact hs (by rw [hc.1, hc.2.1, hc.2.2])
        simp only [tState_mk_eggs, tState_mk_lb, tState_mk_ub]
        constructor
        · rintro ⟨h1, h2, h3, h4, h5 | ⟨h5, h6⟩⟩
          · exact ⟨h1, h2, h3, h4, Or.inl h5⟩
          · refine ⟨h1, h2, h3, h4, Or.inr ⟨h5, ?_⟩⟩
            rcases (show su < u ∨ su = u by omega) with h7 | h7
            · exact h7
            · exact absurd ⟨h1, h5, h7⟩ hne
        · rintro ⟨h1, h2, h3, h4, h5 | ⟨h5, h6⟩⟩
          · exact ⟨h1, h2, h3, h4, Or.inl h5⟩
          · exact ⟨h1, h2, h3, h4, Or.inr ⟨h5, by omega⟩⟩
    rw [hguard]

theorem Vrow_term_succ {F E e l : Int} (he1 : 1 ≤ e) (heE : e ≤ E) :
    Vrow F E e l (l + 1) = Vrow F E e l (l + 2) := by
  funext s
  unfold Vrow guardMap
  have hguard : vrowB F E e l (l + 1) s = vrowB F E e l (l + 2) s := by
    refine bool_eq_of_iff ?_
    rw [vrowB_iff, vrowB_iff]
    constructor
    · rintro (h | ⟨h1, h2, h3, h4, h5 | ⟨h5, h6⟩⟩)
      · exact Or.inl h
      · exact Or.inr ⟨h1, h2, h3, h4, Or.inl h5⟩
      · exact absurd h6 (by omega)
    · rintro (h | ⟨h1, h2, h3, h4, h5 | ⟨h5, h6⟩⟩)
      · exact Or.inl h
      · exact Or.inr ⟨h1, h2, h3, h4, Or.inl h5⟩
      · exact Or.inl ⟨h2, h3, h4, by omega, by omega, Or.inl (by omega)⟩
  rw [hguard]

theorem Arow_term_succ {F E e l : Int} (A0 : tMap) :
    Arow F E e l (l + 1) A0 = Arow F E e l (l + 2) A0 := by
  funext s
  unfold Arow
  have hguard : arowB F E e l (l + 1) s = arowB F E e l (l + 2) s := by
    refine bool_eq_of_iff ?_
    rw [arowB_iff, arowB_iff]
    constructor
    · rintro ⟨h1, h2, h3, h4, h5 | ⟨h5, h6⟩⟩
      · exact ⟨h1, h2, h3, h4, Or.inl h5⟩
      · exact absurd h6 (by omega)
    · rintro ⟨h1, h2, h3, h4, h5 | ⟨h5, h6⟩⟩
      · exact ⟨h1, h2, h3, h4, Or.inl h5⟩
      · exact absurd h6 (by omega)
  rw [hguard]

theorem Arow_row_start {F E e l : Int} (A0 : tMap) :
    Arow F E e l (l + 1) A0 = Arow F E e (l + 1) (F + 2) A0 := by
  funext s
  unfold Arow
  have hguard : arowB F E e l (l + 1) s = arowB F E e (l + 1) (F + 2) s := by
    refine bool_eq_of_iff ?_
    rw [arowB_iff, arowB_iff]
    constructor
    · rintro ⟨h1, h2, h3, h4, h5 | ⟨h5, h6⟩⟩
      · exact ⟨h1, h2, h3, h4, by omega⟩
      · exact absurd h6 (by omega)
    · rintro ⟨h1, h2, h3, h4, h5 | ⟨h5, h6⟩⟩
      · exact ⟨h1, h2, h3, h4, Or.inl (by omega)⟩
      · exact ⟨h1, h2, h3, h4, Or.inl (by omega)⟩
  rw [hguard]

theorem Arow_scan_start {F E e : Int} (A0 : tMap) :
    Arow F E e F (F + 1) A0 = A0 := by
  funext s
  unfold Arow
  have hguard : arowB F E e F (F + 1) s = false := by
    rw [Bool.eq_false_iff]
    intro hc
    have hg := (arowB_iff F E e F (F + 1) s).mp hc
    rcases s with ⟨se, sl, su⟩
    simp only [tState_mk_eggs, tState_mk_lb, tState_mk_ub] at hg
    omega
  rw [hguard]
  simp

theorem Astage_zero (F E : Int) : Astage F E 0 = emptyMap := by
  funext s
  unfold Astage astageB emptyMap
  rw [if_neg (by simp only [decide_eq_true_eq]; omega)]

/-- Finishing the scan of level `e` over the previous action table
`Astage (e-1)` yields exactly `Astage e`. -/
theorem Arow_scan_end_Astage {F E e : Int} (he1 : 1 ≤ e) :
    Arow F E e (-1) 0 (Astage F E (e - 1)) = Astage F E e := by
  funext s
  unfold Arow Astage astageB
  rcases s with ⟨se, sl, su⟩
  by_cases h1 : arowB F E e (-1) 0 ⟨se, sl, su⟩ = true
  · have hg := (arowB_iff F E e (-1) 0 ⟨se, sl, su⟩).mp h1
    simp only [tState_mk_eggs, tState_mk_lb, tState_mk_ub] at hg
    rw [if_pos h1, if_pos (decide_eq_true (by
      simp only [tState_mk_eggs, tState_mk_lb, tState_mk_ub]
      omega))]
  · rw [if_neg h1]
    have hg : ¬ (se = e ∧ 0 ≤ sl ∧ sl + 1 < su ∧ su ≤ F + 1 ∧
        ((-1 : Int) < sl ∨ (sl = -1 ∧ su < 0))) := by
      intro hc
      exact h1 ((arowB_iff F E e (-1) 0 ⟨se, sl, su⟩).mpr (by
        simpa only [tState_mk_eggs, tState_mk_lb, tState_mk_ub] using hc))
    by_cases h2 : (1 ≤ se ∧ se ≤ e - 1 ∧ 0 ≤ sl ∧ sl + 1 < su ∧ su ≤ F + 1)
    · rw [if_pos (decide_eq_true (by
        simp only [tState_mk_eggs, tState_mk_lb, tState_mk_ub]
        exact h2)),
        if_pos (decide_eq_true (by
          simp only [tState_mk_eggs, tState_mk_lb, tState_mk_ub]
          omega))]
    · rw [if_neg (by
        simp only [decide_eq_true_eq, tState_mk_eggs, tState_mk_lb, tState_mk_ub]
        omega),
        if_neg (by
          simp only [decide_eq_true_eq, tState_mk_eggs, tState_mk_lb, tState_mk_ub]
          omega)]

/-! ### The scan folds -/

theorem foldl_fixed {α β : Type _} (f : β → α → β) (st : β) :
    ∀ (L : List α), (∀ x ∈ L, f st x = st) → L.foldl f st = st := by
  intro L
  induction L with
  | nil => intro h; rfl
  | cons x t ih =>
    intro h
    rw [List.foldl_cons, h x (by simp)]
    exact ih (fun y hy => h y (List.mem_cons_of_mem _ hy))

/-- First scan, inner loop: sweeping `u` from `l+1` to `F+1` fills row `l`. -/
theorem scanRow_build {F E e l : Int} (A0 : tMap) (he1 : 1 ≤ e) (heE : e ≤ E)
    (hl : 0 ≤ l) (hlF : l ≤ F) :
    ∀ (n : Nat) (u : Int) (st : BuildSt), l + 1 ≤ u → u + n = F + 2 →
    st.V = Vrow F E e l u → st.A = Arow F E e l u A0 →
    ((intsAsc u n).foldl (fun st2 u2 => processState false e l u2 st2) st).V =
        Vrow F E e l (F + 2) ∧
    ((intsAsc u n).foldl (fun st2 u2 => processState false e l u2 st2) st).A =
        Arow F E e l (F + 2) A0 := by
  intro n
  induction n with
  | zero =>
    intro u st hu1 hu2 hV hA
    have : u = F + 2 := by omega
    subst this
    exact ⟨hV, hA⟩
  | succ n ih =>
    intro u st hu1 hu2 hV hA
    simp only [intsAsc, List.foldl_cons]
    rcases eq_or_lt_of_le hu1 with hterm | hwide
    · have hsome : (st.V ⟨e, l, u⟩).isSome = true := by
        rw [hV, Vrow_eq_some_prev (by
          simp only [tState_mk_eggs, tState_mk_lb, tState_mk_ub, true_and, and_true, true_or, or_true]
          omega)]
        rfl
      rw [processState_skip_terminal false st hterm.symm hl (by omega) hsome]
      refine ih (u + 1) st (by omega) (by push_cast at hu2 ⊢; omega) ?_ ?_
      · rw [hV, ← hterm, Vrow_term_succ he1 heE, show l + 2 = l + 1 + 1 by ring]
      · rw [hA, ← hterm, Arow_term_succ, show l + 2 = l + 1 + 1 by ring]
    · have huF : u ≤ F + 1 := by push_cast at hu2; omega
      rw [processState_insert st he1 heE hl (by omega) huF hV]
      refine ih (u + 1) _ (by omega) (by push_cast at hu2 ⊢; omega) ?_ ?_
      · rfl
      · simp only
        rw [hA, Arow_u_succ A0 hl (by omega) huF]

/-- First scan, outer loop: sweeping `l` from `F` down to `0`. -/
theorem scanCol_build {F E e : Int} (A0 : tMap) (he1 : 1 ≤ e) (heE : e ≤ E) :
    ∀ (n : Nat) (l : Int) (st : BuildSt), l + 1 = (n : Int) → l ≤ F →
    st.V = Vrow F E e l (l + 1) → st.A = Arow F E e l (l + 1) A0 →
    (((intsDesc l n).foldl
      (fun st2 l2 => (intsAsc (l2 + 1) (F + 1 - l2).toNat).foldl
        (fun st3 u3 => processState false e l2 u3 st3) st2) st).V =
        Vrow F E e (-1) 0 ∧
     ((intsDesc l n).foldl
      (fun st2 l2 => (intsAsc (l2 + 1) (F + 1 - l2).toNat).foldl
        (fun st3 u3 => processState false e l2 u3 st3) st2) st).A =
        Arow F E e (-1) 0 A0) := by
  intro n
  induction n with
  | zero =>
    intro l st hn hlF hV hA
    have : l = -1 := by push_cast at hn; omega
    subst this
    exact ⟨by simpa using hV, by simpa using hA⟩
  | succ n ih =>
    intro l st hn hlF hV hA
    have hl : 0 ≤ l := by push_cast at hn; omega
    simp only [intsDesc, List.foldl_cons]
    obtain ⟨hV2, hA2⟩ := scanRow_build A0 he1 heE hl hlF
      (F + 1 - l).toNat (l + 1) st (le_refl _) (by omega) hV hA
    have hrs : Vrow F E e (l - 1) l = Vrow F E e l (F + 2) := by
      have h := Vrow_row_start (F := F) (E := E) (e := e) (l := l - 1)
      rwa [show l - 1 + 1 = l by ring] at h
    have hrsA : Arow F E e (l - 1) l A0 = Arow F E e l (F + 2) A0 := by
      have h := Arow_row_start (F := F) (E := E) (e := e) (l := l - 1) A0
      rwa [show l - 1 + 1 = l by ring] at h
    refine ih (l - 1) _ (by push_cast at hn ⊢; omega) (by omega) ?_ ?_
    · rw [show l - 1 + 1 = l by ring, hrs]; exact hV2
    · rw [show l - 1 + 1 = l by ring, hrsA]; exact hA2

/-- The first scan of level `e` converts the converged stage `e-1` tables
into the converged stage-`e` value table and the corresponding actions. -/
theorem single_scan_first {F E e : Int} (A0 : tMap) (he1 : 1 ≤ e) (heE : e ≤ E)
    (hF : 1 ≤ F) (ins mods : Nat) :
    (single_scan F e e false ⟨Vstage F E (e - 1), A0, ins, mods⟩).V =
        Vstage F E e ∧
    (single_scan F e e false ⟨Vstage F E (e - 1), A0, ins, mods⟩).A =
        Arow F E e (-1) 0 A0 := by
  unfold single_scan
  have hone : (e + 1 - e).toNat = 1 := by omega
  rw [hone]
  simp only [intsAsc, List.foldl_cons, List.foldl_nil]
  have hcol := scanCol_build A0 he1 heE (F + 1).toNat F
    ⟨Vstage F E (e - 1), A0, ins, mods⟩ (by omega) (le_refl F) ?_ ?_
  · obtain ⟨h1, h2⟩ := hcol
    rw [Vrow_scan_end he1 heE] at h1
    exact ⟨h1, h2⟩
  · simp only
    rw [Vrow_scan_start]
  · simp only
    rw [Arow_scan_start]

/-- Any later scan of a converged level makes no edits and leaves the state
untouched. -/
theorem single_scan_noop {F E e : Int} (he1 : 1 ≤ e) (heE : e ≤ E)
    (c1 c2 : Nat) :
    single_scan F e e false ⟨Vstage F E e, Astage F E e, c1, c2⟩ =
      ⟨Vstage F E e, Astage F E e, c1, c2⟩ := by
  unfold single_scan
  have hone : (e + 1 - e).toNat = 1 := by omega
  rw [hone]
  simp only [intsAsc, List.foldl_cons, List.foldl_nil]
  refine foldl_fixed _ _ _ ?_
  intro l hlmem
  rw [mem_intsDesc] at hlmem
  refine foldl_fixed _ _ _ ?_
  intro u humem
  rw [mem_intsAsc] at humem
  exact processState_noop _ he1 heE (by omega) (by omega) (by omega) rfl rfl

/-- With fuel 2, the per-level convergence loop of `main` converges exactly
to the stage-`e` tables. -/
theorem convergeLevel_build {F E e : Int} (he1 : 1 ≤ e) (heE : e ≤ E)
    (hF : 1 ≤ F) (A0 : tMap)
    (hA0 : Arow F E e (-1) 0 A0 = Astage F E e) :
    convergeLevel F e false 2 (Vstage F E (e - 1), A0) =
      some (Vstage F E e, Astage F E e) := by
  obtain ⟨h1, h2⟩ := single_scan_first A0 he1 heE hF 0 0
  rw [hA0] at h2
  unfold convergeLevel
  by_cases hc : (single_scan F e e false ⟨Vstage F E (e - 1), A0, 0, 0⟩).inserts = 0 ∧
      (single_scan F e e false ⟨Vstage F E (e - 1), A0, 0, 0⟩).modifies = 0
  · rw [if_pos hc, h1, h2]
  · rw [if_neg hc, h1, h2]
    unfold convergeLevel
    rw [single_scan_noop he1 heE 0 0]
    simp

/-- With fuel 2, the whole table-building phase of `main` computes exactly
the closed-form tables `Vstage F E E` and `Astage F E E`. -/
theorem buildTables_build {F E : Int} (hF : 1 ≤ F) (hE : 1 ≤ E) :
    buildTables F E false 2 = some (Vstage F E E, Astage F E E) := by
  unfold buildTables
  rw [init_eq_Vstage0]
  have main : ∀ (n : Nat) (e0 : Int), 1 ≤ e0 → e0 + n = E + 1 →
      (intsAsc e0 n).foldl (fun acc e => acc.bind (convergeLevel F e false 2))
        (some (Vstage F E (e0 - 1), Astage F E (e0 - 1))) =
        some (Vstage F E E, Astage F E E) := by
    intro n
    induction n with
    | zero =>
      intro e0 he0 hsum
      have : e0 - 1 = E := by push_cast at hsum; omega
      rw [this]
      rfl
    | succ n ih =>
      intro e0 he0 hsum
      simp only [intsAsc, List.foldl_cons, Option.bind_eq_bind, Option.some_bind]
      rw [convergeLevel_build he0 (by push_cast at hsum; omega) hF
        (Astage F E (e0 - 1)) (Arow_scan_end_Astage he0)]
      have hstep := ih (e0 + 1) (by omega) (by push_cast at hsum ⊢; omega)
      rw [show e0 + 1 - 1 = e0 by ring] at hstep
      exact hstep
  have h0 := main E.toNat 1 (le_refl 1) (by omega)
  rw [show (1 : Int) - 1 = 0 by ring] at h0
  rw [Astage_zero F E] at h0
  exact h0

/-! ### Properties of the chosen action and the policy runner -/

theorem faa_sound_top {s : tState} {V : tMap} {brk : Bool} {x : Int × Int}
    (hw : s.lb + 1 ≤ s.ub) (h : x ∈ find_admissible_actions s V brk) :
    s.lb < x.1 ∧ x.1 < s.ub ∧ calc_maximum_value s x.1 V = some x.2 ∧
      x.2 ≠ -1 := by
  unfold find_admissible_actions at h
  obtain ⟨h1, h2, h3, h4⟩ := faa_sound h
  refine ⟨by omega, by omega, h3, h4⟩

/-- The default tie-broken action at a reachable non-terminal state is an
in-range probe achieving the optimal worst-case value. -/
theorem chosen_spec {F E e l u : Int} (he1 : 1 ≤ e) (heE : e ≤ E)
    (hl : 0 ≤ l) (hu : l + 2 ≤ u) (huF : u ≤ F + 1) :
    l < chosenOf ⟨e, l, u⟩ (Vstage F E e) ∧
    chosenOf ⟨e, l, u⟩ (Vstage F E e) < u ∧
    calc_maximum_value ⟨e, l, u⟩ (chosenOf ⟨e, l, u⟩ (Vstage F E e))
      (Vstage F E e) = some (vstarI e (u - l)) := by
  obtain ⟨hne, hval⟩ := faa_stage_all he1 heE hl hu huF
  have hmem := chosen_mem_pairs _ hne
  rw [hval] at hmem
  have hsound := faa_sound_top (by simp only [tState_mk_lb, tState_mk_ub]; omega) hmem
  exact ⟨hsound.1, hsound.2.1, hsound.2.2.1⟩

/-- With one egg, the chosen action is always the lowest admissible floor
`l + 1`. -/
theorem chosen_one {F E l u : Int} (hE : 1 ≤ E) (hl : 0 ≤ l) (hu : l + 2 ≤ u)
    (huF : u ≤ F + 1) :
    chosenOf ⟨1, l, u⟩ (Vstage F E 1) = l + 1 := by
  unfold chosenOf
  rw [faa_stage_one hE hl hu huF, chosenOfPairs_singleton]

theorem run_policy_go_terminal {A : tMap} {L : Int} {s : tState}
    (h : s.isterminal = true) :
    ∀ n, run_policy_go A L n s = SimRes.ok 0 [] := by
  intro n
  cases n <;> simp [run_policy_go, h]

theorem eggdrop_mk_break {e l u p L : Int} (h : L < p) (h2 : p < u) :
    ((⟨e, l, u⟩ : tState).eggdrop p L).1 = ⟨e - 1, l, p⟩ := by
  simp [tState.eggdrop, h, h2]

theorem eggdrop_mk_nobreak {e l u p L : Int} (h : ¬ L < p) (h2 : l < p) :
    ((⟨e, l, u⟩ : tState).eggdrop p L).1 = ⟨e, p, u⟩ := by
  simp [tState.eggdrop, h, h2]

theorem terminal_mk {e l : Int} (he : 0 ≤ e) (hl : 0 ≤ l) :
    (⟨e, l, l + 1⟩ : tState).isterminal = true := by
  simp only [tState.isterminal, tState_mk_eggs, tState_mk_lb, tState_mk_ub,
    decide_eq_true_eq]
  exact ⟨trivial, hl, he⟩

/-- Optimality equation satisfied by the chosen action: the two successor
branch values max out to exactly one less than the state value, and with one
egg the chosen probe is `lb + 1`. -/
theorem chosen_branch_eq {F E e l u : Int} (he1 : 1 ≤ e) (heE : e ≤ E)
    (hl : 0 ≤ l) (hu : l + 2 ≤ u) (huF : u ≤ F + 1) :
    (e = 1 → chosenOf ⟨e, l, u⟩ (Vstage F E e) = l + 1) ∧
    (2 ≤ e → 1 + max (vstarI (e - 1) (chosenOf ⟨e, l, u⟩ (Vstage F E e) - l))
        (vstarI e (u - chosenOf ⟨e, l, u⟩ (Vstage F E e))) = vstarI e (u - l)) := by
  constructor
  · intro he
    subst he
    exact chosen_one (by omega) hl hu huF
  · intro he2
    obtain ⟨hc1, hc2, hc3⟩ := chosen_spec he1 heE hl hu huF
    rw [calc_stage_ge2 he2 heE hl (by omega) huF hc1 hc2] at hc3
    exact Option.some.inj hc3

/-- Full correctness of the policy runner against the converged tables: from
any reachable state every threshold is localized within `vstar` drops, and
some threshold needs exactly `vstar` drops. -/
theorem run_policy_spec {F E : Int} (hF : 1 ≤ F) (hE : 1 ≤ E) :
    ∀ (n : Nat) (e l u : Int), 1 ≤ e → e ≤ E → 0 ≤ l → l < u → u ≤ F + 1 →
    (u - l).toNat ≤ n + 1 →
    (∀ L, l ≤ L → L < u → ∃ k tr,
      run_policy_go (Astage F E E) L n ⟨e, l, u⟩ = SimRes.ok k tr ∧
        (k : Int) ≤ vstarI e (u - l)) ∧
    (∃ L k tr, l ≤ L ∧ L < u ∧
      run_policy_go (Astage F E E) L n ⟨e, l, u⟩ = SimRes.ok k tr ∧
        (k : Int) = vstarI e (u - l)) := by
  intro n
  induction n with
  | zero =>
    intro e l u he1 heE hl hw huF hfuel
    have hterm : u = l + 1 := by omega
    subst hterm
    have ht := terminal_mk (e := e) (l := l) (by omega) hl
    constructor
    · intro L hL1 hL2
      refine ⟨0, [], run_policy_go_terminal ht 0, ?_⟩
      have := vstarI_nonneg e (l + 1 - l)
      omega
    · refine ⟨l, 0, [], le_refl l, by omega, run_policy_go_terminal ht 0, ?_⟩
      rw [show l + 1 - l = (1 : Int) by ring, vstarI_width_one]
      rfl
  | succ n ih =>
    intro e l u he1 heE hl hw huF hfuel
    rcases eq_or_lt_of_le (show l + 1 ≤ u by omega) with hterm | hwide
    · subst hterm
      have ht := terminal_mk (e := e) (l := l) (by omega) hl
      constructor
      · intro L hL1 hL2
        refine ⟨0, [], run_policy_go_terminal ht (n + 1), ?_⟩
        have := vstarI_nonneg e (l + 1 - l)
        omega
      · refine ⟨l, 0, [], le_refl l, by omega,
          run_policy_go_terminal ht (n + 1), ?_⟩
        rw [show l + 1 - l = (1 : Int) by ring, vstarI_width_one]
        rfl
    · -- non-terminal state: one lookup, then recurse on the branch
      have hA : Astage F E E ⟨e, l, u⟩ =
          some (chosenOf ⟨e, l, u⟩ (Vstage F E e)) := by
        have h := Astage_eq_some (F := F) (E := E) (t := E) (s := ⟨e, l, u⟩)
          (by simp only [tState_mk_eggs, tState_mk_lb, tState_mk_ub, true_and, and_true, true_or, or_true]; omega)
        simpa using h
      set a := chosenOf ⟨e, l, u⟩ (Vstage F E e) with ha
      obtain ⟨hc1, hc2, hc3⟩ := chosen_spec he1 heE hl (by omega) huF
      rw [← ha] at hc1 hc2 hc3
      have htf : (⟨e, l, u⟩ : tState).isterminal = false :=
        isterminal_false_of_wide _ (by simp only [tState_mk_lb, tState_mk_ub]; omega)
      obtain ⟨hone, htwo⟩ := chosen_branch_eq he1 heE hl (by omega) huF
      rw [← ha] at hone htwo
      -- left branch data
      have hleft : (∀ L, l ≤ L → L < a → ∃ k tr,
          run_policy_go (Astage F E E) L n ⟨e - 1, l, a⟩ = SimRes.ok k tr ∧
            (k : Int) ≤ vstarI (e - 1) (a - l)) ∧
          (∃ L k tr, l ≤ L ∧ L < a ∧
            run_policy_go (Astage F E E) L n ⟨e - 1, l, a⟩ = SimRes.ok k tr ∧
              (k : Int) = vstarI (e - 1) (a - l)) := by
        rcases (show e = 1 ∨ 2 ≤ e by omega) with he | he
        · have haeq : a = l + 1 := hone he
          have ht : (⟨e - 1, l, a⟩ : tState).isterminal = true := by
            rw [haeq, he]
            exact terminal_mk (by omega) hl
          constructor
          · intro L hL1 hL2
            refine ⟨0, [], run_policy_go_terminal ht n, ?_⟩
            have := vstarI_nonneg (e - 1) (a - l)
            omega
          · refine ⟨l, 0, [], le_refl l, by omega, run_policy_go_terminal ht n, ?_⟩
            rw [haeq, show l + 1 - l = (1 : Int) by ring, vstarI_width_one]
            rfl
        · exact ih (e - 1) l a (by omega) (by omega) hl (by omega) (by omega)
            (by omega)
      -- right branch data
      have hright := ih e a u he1 heE (by omega) (by omega) huF (by omega)
      -- step equation for any threshold
      have hstep : ∀ L, run_policy_go (Astage F E E) L (n + 1) ⟨e, l, u⟩ =
          match run_policy_go (Astage F E E) L n
            ((⟨e, l, u⟩ : tState).eggdrop a L).1 with
          | SimRes.ok k tr => SimRes.ok (k + 1) (a :: tr)
          | r => r := by
        intro L
        rw [run_policy_go]
        rw [htf]
        simp only [Bool.false_eq_true, if_false, hA]
      -- the branch-value bound common to both egg counts
      have hboth : 1 + vstarI (e - 1) (a - l) ≤ vstarI e (u - l) ∧
          1 + vstarI e (u - a) ≤ vstarI e (u - l) ∧
          (1 + vstarI (e - 1) (a - l) = vstarI e (u - l) ∨
           1 + vstarI e (u - a) = vstarI e (u - l)) := by
        rcases (show e = 1 ∨ 2 ≤ e by omega) with he | he
        · have haeq : a = l + 1 := hone he
          subst he
          rw [haeq]
          rw [show l + 1 - l = (1 : Int) by ring]
          rw [show (1 : Int) - 1 = 0 by ring, vstarI_width_one,
            vstarI_one_egg (show (1:Int) ≤ u - l by omega),
            vstarI_one_egg (show (1:Int) ≤ u - (l + 1) by omega)]
          omega
        · have hmax := htwo he
          rcases max_cases (vstarI (e - 1) (a - l)) (vstarI e (u - a)) with
            ⟨hm1, hm2⟩ | ⟨hm1, hm2⟩ <;> rw [hm1] at hmax <;> omega
      constructor
      · intro L hL1 hL2
        by_cases hbr : L < a
        · obtain ⟨k, tr, hrun, hk⟩ := hleft.1 L hL1 hbr
          refine ⟨k + 1, a :: tr, ?_, ?_⟩
          · rw [hstep L, eggdrop_mk_break hbr hc2, hrun]
          · push_cast
            omega
        · obtain ⟨k, tr, hrun, hk⟩ := hright.1 L (by omega) hL2
          refine ⟨k + 1, a :: tr, ?_, ?_⟩
          · rw [hstep L, eggdrop_mk_nobreak hbr hc1, hrun]
          · push_cast
            omega
      · rcases hboth.2.2 with hach | hach
        · obtain ⟨L, k, tr, hL1, hL2, hrun, hk⟩ := hleft.2
          refine ⟨L, k + 1, a :: tr, hL1, by omega, ?_, ?_⟩
          · rw [hstep L, eggdrop_mk_break hL2 hc2, hrun]
          · push_cast
            omega
        · obtain ⟨L, k, tr, hL1, hL2, hrun, hk⟩ := hright.2
          refine ⟨L, k + 1, a :: tr, by omega, hL2, ?_, ?_⟩
          · rw [hstep L, eggdrop_mk_nobreak (by omega) hc1, hrun]
          · push_cast
            omega

/-- The `check_policy` accumulation loop returns exactly `B` when every
simulated run is `ok` with at most `B` steps, some run (or the accumulator)
attains `B`, and the accumulator is at most `B`. -/
theorem cpGo_exact {F E : Int} {A : tMap} {B : Int} :
    ∀ (n : Nat) (l0 acc : Int),
    (∀ l, l0 ≤ l → l < l0 + n → ∃ k tr,
      run_policy_once F E l A = SimRes.ok k tr ∧ (k : Int) ≤ B) →
    ((∃ l k tr, l0 ≤ l ∧ l < l0 + n ∧
      run_policy_once F E l A = SimRes.ok k tr ∧ (k : Int) = B) ∨ acc = B) →
    acc ≤ B →
    cpGo F E A n l0 acc = some B := by
  intro n
  induction n with
  | zero =>
    intro l0 acc hall hach hacc
    rcases hach with ⟨l, k, tr, h1, h2, _⟩ | h
    · exfalso
      push_cast at h2
      omega
    · rw [h]
      rfl
  | succ n ih =>
    intro l0 acc hall hach hacc
    obtain ⟨k, tr, hrun, hk⟩ := hall l0 (le_refl _) (by push_cast; omega)
    rw [cpGo, hrun]
    refine ih (l0 + 1) (max acc (k : Int)) ?_ ?_ (by omega)
    · intro l h1 h2
      refine hall l (by omega) (by push_cast at h2 ⊢; omega)
    · rcases hach with ⟨l, k', tr', h1, h2, hrun', hkB⟩ | h
      · by_cases hl : l = l0
        · subst hl
          rw [hrun] at hrun'
          have hkk : k' = k := by
            injection hrun' with hk1 hk2
            omega
          right
          rw [hkk] at hkB
          omega
        · left
          exact ⟨l, k', tr', by omega, by push_cast at h2 ⊢; omega, hrun', hkB⟩
      · right
        omega

/-- `check_policy` on the converged tables reports success with worst case
`vstarI e (F + 1)` for every egg level `1 ≤ e ≤ E`. -/
theorem check_policy_converged {F E e : Int} (hF : 1 ≤ F) (hE : 1 ≤ E)
    (he1 : 1 ≤ e) (heE : e ≤ E) :
    check_policy F e (Vstage F E E) (Astage F E E) =
      some (true, vstarI e (F + 1)) := by
  have hV : Vstage F E E ⟨e, 0, F + 1⟩ = some (vstarI e (F + 1)) := by
    have h := Vstage_eq_some (F := F) (E := E) (t := E) (s := ⟨e, 0, F + 1⟩)
      (by simp only [tState_mk_eggs, tState_mk_lb, tState_mk_ub, true_and, and_true, true_or, or_true]; omega)
    simpa using h
  unfold check_policy
  rw [hV]
  have hrs := run_policy_spec hF hE (F + 1).toNat e 0 (F + 1) he1 heE
    (le_refl 0) (by omega) (le_refl _) (by omega)
  simp only [sub_zero] at hrs
  have hall : ∀ l, (0 : Int) ≤ l → l < 0 + ((F + 1).toNat : Int) →
      ∃ k tr, run_policy_once F e l (Astage F E E) = SimRes.ok k tr ∧
        (k : Int) ≤ vstarI e (F + 1) := by
    intro l h1 h2
    obtain ⟨k, tr, hr, hk⟩ := hrs.1 l h1 (by omega)
    exact ⟨k, tr, hr, hk⟩
  have hach : (∃ l k tr, (0 : Int) ≤ l ∧ l < 0 + ((F + 1).toNat : Int) ∧
      run_policy_once F e l (Astage F E E) = SimRes.ok k tr ∧
        (k : Int) = vstarI e (F + 1)) ∨ (0 : Int) = vstarI e (F + 1) := by
    obtain ⟨L, k, tr, h1, h2, hr, hk⟩ := hrs.2
    exact Or.inl ⟨L, k, tr, h1, by omega, hr, hk⟩
  rw [cpGo_exact (F + 1).toNat 0 0 hall hach (vstarI_nonneg _ _)]
  simp

/-- C1 (algebraic_relational): for every valid instance `(F, E)` the builder
converges, and for every egg level `1 ≤ e ≤ E` running `check_policy` on the
converged tables yields `max_drops` equal to the stored nominal value
`V[(e, 0, F+1)]`, with the comparison flag `true`. -/
theorem spec_check_policy_roundtrip (F E : Int) (hF : 1 ≤ F) (hE : 1 ≤ E) :
    ∃ V A, buildTables F E false 2 = some (V, A) ∧
      ∀ e, 1 ≤ e → e ≤ E →
        ∃ nominal, V ⟨e, 0, F + 1⟩ = some nominal ∧
          check_policy F e V A = some (true, nominal) := by
  refine ⟨Vstage F E E, Astage F E E, buildTables_build hF hE, ?_⟩
  intro e he1 heE
  refine ⟨vstarI e (F + 1), ?_, check_policy_converged hF hE he1 heE⟩
  have h := Vstage_eq_some (F := F) (E := E) (t := E) (s := ⟨e, 0, F + 1⟩)
    (by simp only [tState_mk_eggs, tState_mk_lb, tState_mk_ub, true_and, and_true, true_or, or_true]; omega)
  simpa using h

theorem spec_check_policy_roundtrip_witness :
    (1 : Int) ≤ 2 ∧ (1 : Int) ≤ 2 ∧
    (∃ V A, buildTables 2 2 false 2 = some (V, A) ∧
      ∀ e, 1 ≤ e → e ≤ 2 →
        ∃ nominal, V ⟨e, 0, 2 + 1⟩ = some nominal ∧
          check_policy 2 e V A = some (true, nominal)) :=
  ⟨by decide, by decide,
    spec_check_policy_roundtrip 2 2 (by decide) (by decide)⟩

/-- C2 (refinement_equivalence): for every valid instance `(F, E)` the builder
converges and the stored nominal value `V[(E, 0, F+1)]` equals the classical
recurrence result `classic_dpegg_limit F E`. -/
theorem spec_value_matches_classic (F E : Int) (hF : 1 ≤ F) (hE : 1 ≤ E) :
    ∃ V A, buildTables F E false 2 = some (V, A) ∧
      V ⟨E, 0, F + 1⟩ = some (classic_dpegg_limit F E) := by
  refine ⟨Vstage F E E, Astage F E E, buildTables_build hF hE, ?_⟩
  rw [classic_eq_vstar hF hE]
  have h := Vstage_eq_some (F := F) (E := E) (t := E) (s := ⟨E, 0, F + 1⟩)
    (by simp only [tState_mk_eggs, tState_mk_lb, tState_mk_ub, true_and, and_true, true_or, or_true]; omega)
  simpa using h

theorem spec_value_matches_classic_witness :
    (1 : Int) ≤ 3 ∧ (1 : Int) ≤ 2 ∧
    (∃ V A, buildTables 3 2 false 2 = some (V, A) ∧
      V ⟨2, 0, 3 + 1⟩ = some (classic_dpegg_limit 3 2)) :=
  ⟨by decide, by decide, spec_value_matches_classic 3 2 (by decide) (by decide)⟩

/-- C9 (algebraic_relational): after convergence the nominal value
`V[(e, 0, F+1)]` is non-increasing in the egg count `e` for fixed `F`, and
non-decreasing in `F` for fixed `e` (comparing the converged tables of the
two instances). -/
theorem spec_nominal_monotone (F E : Int) (hF : 1 ≤ F) (hE : 1 ≤ E) :
    ∃ V A, buildTables F E false 2 = some (V, A) ∧
      (∀ e e' v v', 1 ≤ e → e ≤ e' → e' ≤ E →
        V ⟨e, 0, F + 1⟩ = some v → V ⟨e', 0, F + 1⟩ = some v' → v' ≤ v) ∧
      (∀ F' V' A', F ≤ F' → buildTables F' E false 2 = some (V', A') →
        ∀ e v v', 1 ≤ e → e ≤ E → V ⟨e, 0, F + 1⟩ = some v →
          V' ⟨e, 0, F' + 1⟩ = some v' → v ≤ v') := by
  have hlook : ∀ F₀ e, 1 ≤ F₀ → 1 ≤ e → e ≤ E →
      Vstage F₀ E E ⟨e, 0, F₀ + 1⟩ = some (vstarI e (F₀ + 1)) := by
    intro F₀ e hF₀ he1 heE
    have h := Vstage_eq_some (F := F₀) (E := E) (t := E) (s := ⟨e, 0, F₀ + 1⟩)
      (by simp only [tState_mk_eggs, tState_mk_lb, tState_mk_ub, true_and, and_true, true_or, or_true]; omega)
    simpa using h
  refine ⟨Vstage F E E, Astage F E E, buildTables_build hF hE, ?_, ?_⟩
  · intro e e' v v' he1 hee' heE hv hv'
    rw [hlook F e hF he1 (by omega)] at hv
    rw [hlook F e' hF (by omega) heE] at hv'
    have hmono := vstarI_anti_e (e := e) (d := e') (w := F + 1) he1 hee'
    have h1 := Option.some.inj hv
    have h2 := Option.some.inj hv'
    omega
  · intro F' V' A' hFF' hb' e v v' he1 heE hv hv'
    have heq := buildTables_build (F := F') (E := E) (by omega) hE
    rw [heq] at hb'
    have h2 := Option.some.inj hb'
    have hV' : V' = Vstage F' E E := (congrArg Prod.fst h2).symm
    rw [hV'] at hv'
    rw [hlook F e hF he1 heE] at hv
    rw [hlook F' e (by omega) he1 heE] at hv'
    have hmono := vstarI_mono_w (e := e) (w := F + 1) (x := F' + 1) he1
      (by omega) (by omega)
    have h3 := Option.some.inj hv
    have h4 := Option.some.inj hv'
    omega

theorem spec_nominal_monotone_witness :
    (1 : Int) ≤ 2 ∧ (1 : Int) ≤ 3 ∧
    (∃ V A, buildTables 2 3 false 2 = some (V, A) ∧
      (∀ e e' v v', 1 ≤ e → e ≤ e' → e' ≤ 3 →
        V ⟨e, 0, 2 + 1⟩ = some v → V ⟨e', 0, 2 + 1⟩ = some v' → v' ≤ v) ∧
      (∀ F' V' A', 2 ≤ F' → buildTables F' 3 false 2 = some (V', A') →
        ∀ e v v', 1 ≤ e → e ≤ 3 → V ⟨e, 0, 2 + 1⟩ = some v →
          V' ⟨e, 0, F' + 1⟩ = some v' → v ≤ v')) :=
  ⟨by decide, by decide, spec_nominal_monotone 2 3 (by decide) (by decide)⟩

/-- With one egg, the converged policy performs linear search: from state
`(1, c, F+1)` with true threshold `L`, the probe trace is the ascending
sequence `c+1, c+2, …` truncated at termination, with `L - c + 1` steps when
`L < F` and `F - c` steps when `L = F`. -/
theorem run_one_egg {F : Int} (hF : 1 ≤ F) :
    ∀ (n : Nat) (c L : Int), 0 ≤ c → c ≤ L → L ≤ F → (F + 1 - c).toNat ≤ n + 1 →
    run_policy_go (Astage F 1 1) L n ⟨1, c, F + 1⟩ =
      SimRes.ok (if L < F then (L - c + 1).toNat else (F - c).toNat)
        (intsAsc (c + 1) (if L < F then (L - c + 1).toNat else (F - c).toNat)) := by
  intro n
  induction n with
  | zero =>
    intro c L hc hcL hLF hfuel
    have hcF : c = F := by omega
    have ht : (⟨1, c, F + 1⟩ : tState).isterminal = true := by
      rw [show F + 1 = c + 1 by omega]
      exact terminal_mk (by omega) (by omega)
    rw [run_policy_go_terminal ht 0, if_neg (show ¬ L < F by omega),
      show (F - c).toNat = 0 from by omega]
    rfl
  | succ n ih =>
    intro c L hc hcL hLF hfuel
    by_cases hcF : c = F
    · have ht : (⟨1, c, F + 1⟩ : tState).isterminal = true := by
        rw [show F + 1 = c + 1 by omega]
        exact terminal_mk (by omega) (by omega)
      rw [run_policy_go_terminal ht (n + 1), if_neg (show ¬ L < F by omega),
        show (F - c).toNat = 0 from by omega]
      rfl
    · have hcF' : c < F := by omega
      have htf : (⟨1, c, F + 1⟩ : tState).isterminal = false :=
        isterminal_false_of_wide _
          (by simp only [tState_mk_lb, tState_mk_ub]; omega)
      have hA : Astage F 1 1 ⟨1, c, F + 1⟩ = some (c + 1) := by
        have h := Astage_eq_some (F := F) (E := 1) (t := 1)
          (s := ⟨1, c, F + 1⟩)
          (by simp only [tState_mk_eggs, tState_mk_lb, tState_mk_ub, true_and, and_true, true_or, or_true]; omega)
        rw [h]
        simp only [tState_mk_eggs]
        rw [chosen_one (le_refl 1) hc (by omega) (le_refl _)]
      rw [run_policy_go]
      rw [htf]
      simp only [Bool.false_eq_true, if_false, hA]
      by_cases hbr : L < c + 1
      · have hnext : ((⟨1, c, F + 1⟩ : tState).eggdrop (c + 1) L).1 =
            ⟨0, c, c + 1⟩ := eggdrop_mk_break hbr (by omega)
        rw [hnext]
        have ht0 : (⟨0, c, c + 1⟩ : tState).isterminal = true :=
          terminal_mk (le_refl 0) hc
        rw [run_policy_go_terminal ht0 n]
        rw [if_pos (show L < F by omega),
          show (L - c + 1).toNat = 1 from by omega]
        rfl
      · have hnext : ((⟨1, c, F + 1⟩ : tState).eggdrop (c + 1) L).1 =
            ⟨1, c + 1, F + 1⟩ := eggdrop_mk_nobreak hbr (by omega)
        rw [hnext]
        rw [ih (c + 1) L (by omega) (by omega) hLF (by omega)]
        by_cases hLF2 : L < F
        · rw [if_pos hLF2, if_pos hLF2,
            show (L - c + 1).toNat = (L - (c + 1) + 1).toNat + 1 from by omega,
            intsAsc, show c + 1 + 1 = c + 2 by ring]
        · rw [if_neg hLF2, if_neg hLF2,
            show (F - c).toNat = (F - (c + 1)).toNat + 1 from by omega,
            intsAsc, show c + 1 + 1 = c + 2 by ring]

/-- C7 (functional_correctness): for the one-egg instance `(F, 1)` the
converged policy's trace for every threshold `L ∈ [0, F]` is the ascending
sequence `1, 2, …` truncated at termination, with realized steps `L + 1`
when `L < F` and `F` when `L = F`. -/
theorem spec_one_egg_linear_search (F : Int) (hF : 1 ≤ F) :
    ∃ V A, buildTables F 1 false 2 = some (V, A) ∧
      ∀ L, 0 ≤ L → L ≤ F →
        run_policy_once F 1 L A =
          SimRes.ok (if L < F then (L + 1).toNat else F.toNat)
            (intsAsc 1 (if L < F then (L + 1).toNat else F.toNat)) := by
  refine ⟨Vstage F 1 1, Astage F 1 1, buildTables_build hF (le_refl 1), ?_⟩
  intro L hL hLF
  have h := run_one_egg hF (F + 1).toNat 0 L (le_refl 0) hL hLF (by omega)
  simp only [sub_zero, zero_add] at h
  exact h

theorem spec_one_egg_linear_search_witness :
    (1 : Int) ≤ 3 ∧
    (∃ V A, buildTables 3 1 false 2 = some (V, A) ∧
      ∀ L, 0 ≤ L → L ≤ 3 →
        run_policy_once 3 1 L A =
          SimRes.ok (if L < 3 then (L + 1).toNat else (3 : Int).toNat)
            (intsAsc 1 (if L < 3 then (L + 1).toNat else (3 : Int).toNat))) :=
  ⟨by decide, spec_one_egg_linear_search 3 (by decide)⟩

/-- A single `processState` step either leaves the value table unchanged or
overwrites exactly the scanned key, and an overwrite never increases a
stored value. -/
theorem processState_V_cases (tb : Bool) (e l u : Int) (st : BuildSt) :
    (processState tb e l u st).V = st.V ∨
    ∃ val, (processState tb e l u st).V = mapInsert st.V ⟨e, l, u⟩ val ∧
      ∀ oldv, st.V ⟨e, l, u⟩ = some oldv → val ≤ oldv := by
  unfold processState
  by_cases h1 : ((st.V ⟨e, l, u⟩).isSome && (⟨e, l, u⟩ : tState).isterminal) = true
  · rw [if_pos h1]
    left
    rfl
  · rw [if_neg h1]
    by_cases h2 : find_admissible_actions ⟨e, l, u⟩ st.V true = []
    · rw [if_pos h2]
      left
      rfl
    · rw [if_neg h2]
      cases hV : st.V ⟨e, l, u⟩ with
      | none =>
        simp only [hV]
        right
        refine ⟨valueOf ⟨e, l, u⟩ st.V, rfl, ?_⟩
        intro oldv h
        exact absurd h (by simp)
      | some oldv =>
        simp only [hV]
        by_cases h3 : valueOf ⟨e, l, u⟩ st.V < oldv ∨
            (oldv = valueOf ⟨e, l, u⟩ st.V ∧ st.A ⟨e, l, u⟩ ≠
              some (if tb then chosenTbOf ⟨e, l, u⟩ st.V st.A
                    else chosenOf ⟨e, l, u⟩ st.V))
        · rw [if_pos h3]
          right
          refine ⟨valueOf ⟨e, l, u⟩ st.V, rfl, ?_⟩
          intro oldv2 h
          have h4 := Option.some.inj h
          rcases h3 with h3 | ⟨h3, _⟩ <;> omega
        · rw [if_neg h3]
          left
          rfl

/-- C5 (termination_resources): the Table Builder terminates on every valid
instance — two scans per egg level reach the zero-edit fixed point — and a
single scan step never increases a stored value and never removes an
entry. -/
theorem spec_builder_terminates (F E : Int) (hF : 1 ≤ F) (hE : 1 ≤ E) :
    (∃ VA, buildTables F E false 2 = some VA) ∧
    ∀ (tb : Bool) (e l u : Int) (st : BuildSt) (s : tState) (v : Int),
      st.V s = some v →
        ∃ v2, (processState tb e l u st).V s = some v2 ∧ v2 ≤ v := by
  refine ⟨⟨_, buildTables_build hF hE⟩, ?_⟩
  intro tb e l u st s v hv
  rcases processState_V_cases tb e l u st with h | ⟨val, h, hle⟩
  · exact ⟨v, by rw [h]; exact hv, le_refl v⟩
  · by_cases hs : s = (⟨e, l, u⟩ : tState)
    · subst hs
      refine ⟨val, ?_, hle v hv⟩
      rw [h]
      unfold mapInsert
      simp
    · refine ⟨v, ?_, le_refl v⟩
      rw [h]
      unfold mapInsert
      rw [if_neg hs]
      exact hv

theorem spec_builder_terminates_witness :
    (1 : Int) ≤ 2 ∧ (1 : Int) ≤ 2 ∧
    ((∃ VA, buildTables 2 2 false 2 = some VA) ∧
    ∀ (tb : Bool) (e l u : Int) (st : BuildSt) (s : tState) (v : Int),
      st.V s = some v →
        ∃ v2, (processState tb e l u st).V s = some v2 ∧ v2 ≤ v) :=
  ⟨by decide, by decide, spec_builder_terminates 2 2 (by decide) (by decide)⟩

/-- Inversion for `Vstage`: a stored entry implies the in-domain conditions
and pins the stored value to the closed form. -/
theorem Vstage_some_inv {F E t : Int} {s : tState} {v : Int}
    (h : Vstage F E t s = some v) :
    (0 ≤ s.lb ∧ s.lb < s.ub ∧ s.ub ≤ F + 1 ∧ 0 ≤ s.eggs ∧ s.eggs ≤ E ∧
      (s.ub = s.lb + 1 ∨ (1 ≤ s.eggs ∧ s.eggs ≤ t))) ∧
    v = vstarI s.eggs (s.ub - s.lb) := by
  by_cases hd : (0 ≤ s.lb ∧ s.lb < s.ub ∧ s.ub ≤ F + 1 ∧ 0 ≤ s.eggs ∧
      s.eggs ≤ E ∧ (s.ub = s.lb + 1 ∨ (1 ≤ s.eggs ∧ s.eggs ≤ t)))
  · refine ⟨hd, ?_⟩
    rw [Vstage_eq_some hd] at h
    exact (Option.some.inj h).symm
  · rw [Vstage_eq_none hd] at h
    exact absurd h (by simp)

/-- The stage index of `Vstage` is irrelevant above the state's egg count. -/
theorem Vstage_agree_le {F E st st' : Int} {s : tState}
    (h : s.eggs ≤ st) (h2 : st ≤ st') :
    Vstage F E st s = Vstage F E st' s := by
  unfold Vstage guardMap
  have hiff : inDomB F E st s = true ↔ inDomB F E st' s = true := by
    rw [inDomB_iff, inDomB_iff]
    constructor <;>
      (intro hh
       refine ⟨hh.1, hh.2.1, hh.2.2.1, hh.2.2.2.1, hh.2.2.2.2.1, ?_⟩
       rcases hh.2.2.2.2.2 with h9 | h9
       · exact Or.inl h9
       · exact Or.inr ⟨h9.1, by omega⟩)
  rw [bool_eq_of_iff hiff]

/-- `calc_maximum_value` over the fully converged table agrees with the
state's own-level table. -/
theorem calc_top_eq {F E e l u a : Int} (heE : e ≤ E) (ha1 : l < a)
    (ha2 : a < u) :
    calc_maximum_value ⟨e, l, u⟩ a (Vstage F E E) =
      calc_maximum_value ⟨e, l, u⟩ a (Vstage F E e) := by
  refine calc_congr ?_
  intro f hf1 hf2
  simp only [tState_mk_lb, tState_mk_ub] at hf1 hf2
  by_cases hbr : f < a
  · rw [next_mk_break hbr ha2]
    exact (Vstage_agree_le (by simp only [tState_mk_eggs]; omega) heE).symm
  · rw [next_mk_nobreak hbr ha1]
    exact (Vstage_agree_le (by simp only [tState_mk_eggs]; omega) heE).symm

/-- C3 (invariants): after convergence the table satisfies the Bellman
fixed-point invariant — terminal states store `0`, and each stored
non-terminal state's value is `1 + min` over in-range probes of the maximal
successor cost `calc_maximum_value` (the min over probes whose successors
are all present): some probe attains the stored value and no probe does
better. -/
theorem spec_bellman_invariant (F E : Int) (hF : 1 ≤ F) (hE : 1 ≤ E) :
    ∃ V A, buildTables F E false 2 = some (V, A) ∧
      (∀ e f, 0 ≤ e → e ≤ E → 0 ≤ f → f ≤ F → V ⟨e, f, f + 1⟩ = some 0) ∧
      (∀ s v, s.isterminal = false → V s = some v →
        (∃ p, s.lb < p ∧ p < s.ub ∧ calc_maximum_value s p V = some v) ∧
        (∀ p m, s.lb < p → p < s.ub → calc_maximum_value s p V = some m →
          v ≤ m)) := by
  refine ⟨Vstage F E E, Astage F E E, buildTables_build hF hE, ?_, ?_⟩
  · intro e f he1 heE hf1 hfF
    have h := Vstage_eq_some (F := F) (E := E) (t := E) (s := ⟨e, f, f + 1⟩)
      (by simp only [tState_mk_eggs, tState_mk_lb, tState_mk_ub, true_and, and_true, true_or, or_true]; omega)
    rw [h]
    simp only [tState_mk_eggs, tState_mk_lb, tState_mk_ub]
    rw [show f + 1 - f = (1 : Int) by ring, vstarI_width_one]
  · intro s v hnt hv
    obtain ⟨e, l, u⟩ := s
    obtain ⟨hdom, hval⟩ := Vstage_some_inv hv
    simp only [tState_mk_eggs, tState_mk_lb, tState_mk_ub] at hdom hval ⊢
    have hnt' : ¬ (u = l + 1) := by
      intro heq
      subst heq
      rw [terminal_mk (by omega) (by omega)] at hnt
      exact absurd hnt (by simp)
    have hw : l + 2 ≤ u := by omega
    have he1 : 1 ≤ e := by omega
    have heE2 : e ≤ E := by omega
    subst hval
    constructor
    · rcases (show e = 1 ∨ 2 ≤ e by omega) with he | he
      · subst he
        refine ⟨l + 1, by omega, by omega, ?_⟩
        rw [calc_top_eq heE2 (by omega) (by omega),
          calc_stage_one hE (by omega) (by omega) (by omega),
          vstarI_one_egg (by omega)]
      · obtain ⟨a0, ha1, ha2, ha3, _⟩ := bellmanI he hw
        refine ⟨a0, ha1, ha2, ?_⟩
        rw [calc_top_eq heE2 ha1 ha2,
          calc_stage_ge2 he heE2 (by omega) (by omega) (by omega) ha1 ha2,
          ha3]
    · intro p m hp1 hp2 hm
      rw [calc_top_eq heE2 hp1 hp2] at hm
      rcases (show e = 1 ∨ 2 ≤ e by omega) with he | he
      · subst he
        by_cases hpa : p = l + 1
        · subst hpa
          rw [calc_stage_one hE (by omega) (by omega) (by omega)] at hm
          have h5 := Option.some.inj hm
          rw [vstarI_one_egg (by omega)]
          omega
        · rw [calc_stage_one_none (by omega) (by omega) (by omega)
            (by omega) hp2] at hm
          exact absurd hm (by simp)
      · obtain ⟨a0, _, _, _, hall⟩ := bellmanI he hw
        rw [calc_stage_ge2 he heE2 (by omega) (by omega) (by omega)
          hp1 hp2] at hm
        have h5 := Option.some.inj hm
        have h6 := hall p hp1 hp2
        omega

theorem spec_bellman_invariant_witness :
    (1 : Int) ≤ 3 ∧ (1 : Int) ≤ 2 ∧
    (∃ V A, buildTables 3 2 false 2 = some (V, A) ∧
      (∀ e f, 0 ≤ e → e ≤ 2 → 0 ≤ f → f ≤ 3 → V ⟨e, f, f + 1⟩ = some 0) ∧
      (∀ s v, s.isterminal = false → V s = some v →
        (∃ p, s.lb < p ∧ p < s.ub ∧ calc_maximum_value s p V = some v) ∧
        (∀ p m, s.lb < p → p < s.ub → calc_maximum_value s p V = some m →
          v ≤ m))) :=
  ⟨by decide, by decide, spec_bellman_invariant 3 2 (by decide) (by decide)⟩

theorem map_snd_getD {ps : List (Int × Int)} {k : Nat} (h : k < ps.length) :
    (ps.map Prod.snd).getD k 0 = (ps.getD k (0, 0)).2 := by
  rw [List.getD_eq_getElem _ _ (by simpa using h), List.getElem_map,
    List.getD_eq_getElem _ _ h]

theorem brkTake_ne_nil {ps : List (Int × Int)} {prev : Option Int}
    (h : ps ≠ []) : brkTake ps prev ≠ [] := by
  cases ps with
  | nil => exact absurd rfl h
  | cons x rest =>
    obtain ⟨a, m⟩ := x
    cases prev with
    | none => simp [brkTake]
    | some p =>
      by_cases hp : p < m <;> simp [brkTake, hp]

/-- C6 (refinement_equivalence), corrected: if the full admissible value list
is valley-shaped (unimodal), the break-on-increase scan keeps the true
minimum: the minimum worst-case value over the truncated list equals the
minimum over the full scan.  (The claim as stated, for arbitrary `V`, is
refuted by `spec_break_min_counterexample`.) -/
theorem spec_break_min_amended (s : tState) (V : tMap)
    (hvalley : ValleyList ((find_admissible_actions s V false).map Prod.snd)) :
    valueOfPairs (find_admissible_actions s V true) =
      valueOfPairs (find_admissible_actions s V false) := by
  have htrue : find_admissible_actions s V true =
      brkTake (find_admissible_actions s V false) none := by
    unfold find_admissible_actions
    exact faa_true_eq_brkTake _ _ _
  set full := find_admissible_actions s V false with hfull
  rcases eq_or_ne full [] with hfe | hfe
  · rw [htrue, hfe]
    rfl
  · obtain ⟨i, hilen, hdec, hinc⟩ := hvalley
    rw [List.length_map] at hilen
    have hbrk_ne : brkTake full none ≠ [] := brkTake_ne_nil hfe
    have hmin : ∀ j, j < full.length →
        (full.map Prod.snd).getD i 0 ≤ (full.map Prod.snd).getD j 0 := by
      intro j hj
      rcases le_or_lt j i with hji | hij
      · exact hdec i (le_refl i) j hji
      · exact hinc j (by rw [List.length_map]; exact hj) i (by omega)
          (le_refl i)
    have hpiv : full.getD i (0, 0) ∈ brkTake full none := by
      apply brkTake_pivot_mem full i none hilen
      · intro x y hxy hyi
        rw [← map_snd_getD (by omega), ← map_snd_getD (by omega)]
        exact hdec y hyi x hxy
      · intro p hp
        exact absurd hp (by simp)
    have hvi_mem_brk : (full.getD i (0, 0)).2 ∈
        (brkTake full none).map Prod.snd := List.mem_map_of_mem _ hpiv
    rw [htrue, valueOfPairs_eq_listMin _ hbrk_ne, valueOfPairs_eq_listMin _ hfe]
    apply le_antisymm
    · have h1 := listMin_le_mem _ _ hvi_mem_brk
      have h3 : listMin (full.map Prod.snd) ∈ full.map Prod.snd :=
        listMin_mem _ (by simpa using hfe)
      obtain ⟨j, hj, hjx⟩ := List.getElem_of_mem h3
      have h4 : (full.map Prod.snd).getD j 0 = listMin (full.map Prod.snd) := by
        rw [List.getD_eq_getElem _ _ hj]
        exact hjx
      have h5 := hmin j (by simpa using hj)
      rw [map_snd_getD hilen] at h5
      omega
    · have hb : listMin ((brkTake full none).map Prod.snd) ∈
          (brkTake full none).map Prod.snd :=
        listMin_mem _ (by simpa using hbrk_ne)
      obtain ⟨pair, hpmem, hpsnd⟩ := List.mem_map.mp hb
      have hpf : pair ∈ full := brkTake_subset _ _ _ hpmem
      have hpm : pair.2 ∈ full.map Prod.snd := List.mem_map_of_mem _ hpf
      exact listMin_le_mem _ _ (hpsnd ▸ hpm)

theorem spec_break_min_amended_witness :
    ValleyList ((find_admissible_actions ⟨2, 0, 4⟩ VValley
        false).map Prod.snd) ∧
    valueOfPairs (find_admissible_actions ⟨2, 0, 4⟩ VValley true) =
      valueOfPairs (find_admissible_actions ⟨2, 0, 4⟩ VValley false) :=
  ⟨by decide, spec_break_min_amended ⟨2, 0, 4⟩ VValley (by decide)⟩

/-- C6 (refinement_equivalence), counterexample to the claim as stated: for
the (non-unimodal) value table `VNotUnimodal` and the state `(2, 0, 4)` the
break-on-increase scan keeps the values `[3, 5]` while the full scan yields
`[3, 5, 1]`, so the truncated minimum `3` differs from the true minimum
`1`. -/
theorem spec_break_min_counterexample :
    (find_admissible_actions ⟨2, 0, 4⟩ VNotUnimodal true).map Prod.snd =
      [3, 5] ∧
    (find_admissible_actions ⟨2, 0, 4⟩ VNotUnimodal false).map Prod.snd =
      [3, 5, 1] ∧
    valueOfPairs (find_admissible_actions ⟨2, 0, 4⟩ VNotUnimodal true) = 3 ∧
    valueOfPairs (find_admissible_actions ⟨2, 0, 4⟩ VNotUnimodal false) = 1 ∧
    valueOfPairs (find_admissible_actions ⟨2, 0, 4⟩ VNotUnimodal true) ≠
      valueOfPairs (find_admissible_actions ⟨2, 0, 4⟩ VNotUnimodal false) := by
  decide

/-- C4 (error_handling): when the Policy Runner or the tie-break total-cost
routine reaches a non-terminal state with no Action Table entry, the source
does NOT abort: it dereferences the result of `A.find(s)` without comparing
it against `end()`, which is undefined behavior on a missing key.  In the
embedding the failed lookup is reached and reported (`SimRes.missing` /
`none`); no fatal-abort path exists in the code. -/
theorem spec_missing_lookup_reached :
    run_policy_once 1 1 0 emptyMap = SimRes.missing ⟨1, 0, 2⟩ ∧
    total_policy_at ⟨2, 0, 3⟩ 1 emptyMap = none := by
  constructor <;> rfl
